import Mathlib

/-!
Verification development for the minio namespace-locking core and its
filesystem helper collaborators.

Part 1 models the namespace lock manager (Resource Key, Lock State Table,
Lock Record, LockEntry, the local backend's transition behaviour and the
`listLocksInfo` instrumentation query).  The lock manager's implementation
is not among the visible source files (only its test `TestListLocksInfo`
is), so these definitions are modelled from the spec, as documented on
each definition.

Part 2 embeds the filesystem helpers of `src/cmd/fs-v1-helpers.go`
(`fsDeleteFile`, `fsRemoveFile`, `fsMkdir`, ...) over an explicit
filesystem state, together with a faithful transliteration of Go's
lexical `path.Clean` / `path.Dir`, which `fsDeleteFile` walks upward.
-/

namespace MinioNS

/-- Modelled from the spec: a Resource Key is a `(volume, path)` pair with
exact string equality and no normalization (spec section 3). -/
structure ResourceKey where
  volume : String
  path : String
deriving DecidableEq, Repr

/-- Modelled from the spec: lock type of a request, `Read` (shared) or
`Write` (exclusive). -/
inductive LockType where
  | Read
  | Write
deriving DecidableEq, Repr

/-- Modelled from the spec: status of a LockEntry, `Blocked` while waiting
and `Acquired` once granted. -/
inductive LockStatus where
  | Blocked
  | Acquired
deriving DecidableEq, Repr

/-- Modelled from the spec: a LockEntry is one caller's in-flight or held
lock request: `{operationID, lockType, status, sinceTimestamp, source}`
(spec section 3).  Timestamps are abstract naturals. -/
structure LockEntry where
  opId : Nat
  lockType : LockType
  status : LockStatus
  since : Nat
  source : String
deriving DecidableEq, Repr

/-- Modelled from the spec: a Lock Record holds the per-key bookkeeping:
reader count, writer flag, reference count and the ordered sequence of
LockEntries (spec section 3). -/
structure LockRecord where
  readers : Nat
  writerHeld : Bool
  refCount : Nat
  entries : List LockEntry
deriving DecidableEq, Repr

/-- Modelled from the spec: the Lock State Table, a map from Resource Key
to Lock Record, realised as an association list (insertion ordered). -/
abbrev Table := List (ResourceKey × LockRecord)

/-- Lookup of the (first) record bound to a key in the table. -/
def tableGet (t : Table) (k : ResourceKey) : Option LockRecord :=
  match t with
  | [] => none
  | (k2, r) :: rest => if k2 = k then some r else tableGet rest k

/-- Replace the record bound to a key, or append a fresh binding if the
key is absent. -/
def tableSet (t : Table) (k : ResourceKey) (r : LockRecord) : Table :=
  match t with
  | [] => [(k, r)]
  | (k2, r2) :: rest => if k2 = k then (k, r) :: rest else (k2, r2) :: tableSet rest k r

/-- Remove the (first) binding of a key from the table. -/
def tableRemove (t : Table) (k : ResourceKey) : Table :=
  match t with
  | [] => []
  | (k2, r2) :: rest => if k2 = k then rest else (k2, r2) :: tableRemove rest k

/-- Entries currently recorded for a key (empty when the record is absent). -/
def entriesOf (t : Table) (k : ResourceKey) : List LockEntry :=
  match tableGet t k with
  | none => []
  | some r => r.entries

/-- Flip the status of the entry carrying a given operation id to
`Acquired`, leaving every other entry untouched. -/
def setAcquired (es : List LockEntry) (oid : Nat) : List LockEntry :=
  es.map (fun e => if e.opId = oid then { e with status := LockStatus.Acquired } else e)

/-- Scan the ordered entry queue: `true` when a `Blocked` `Write` entry
occurs strictly before the (first) entry with the given operation id.
Modelled from the spec's write-preferring fairness rule (section 4.2):
a queued writer bars every reader that arrived after it. -/
def blockedWriterBefore (es : List LockEntry) (oid : Nat) : Bool :=
  match es with
  | [] => false
  | e :: rest =>
    if e.opId = oid then false
    else if e.lockType = LockType.Write && e.status = LockStatus.Blocked then true
    else blockedWriterBefore rest oid

/-- Modelled from the spec: a lock request appends a `Blocked` LockEntry
and increments `refCount`, creating the record lazily on first reference
(spec sections 3 and 4.1).  A request reusing an operation id already
present on the key is rejected. -/
def applyRequest (t : Table) (k : ResourceKey) (oid : Nat) (lt : LockType)
    (since : Nat) (src : String) : Option Table :=
  match tableGet t k with
  | none =>
    some (tableSet t k ⟨0, false, 1, [⟨oid, lt, LockStatus.Blocked, since, src⟩]⟩)
  | some r =>
    if r.entries.any (fun e => e.opId = oid) then none
    else some (tableSet t k ⟨r.readers, r.writerHeld, r.refCount + 1,
      r.entries ++ [⟨oid, lt, LockStatus.Blocked, since, src⟩]⟩)

/-- Modelled from the spec: granting a blocked request.  A shared grant
requires no active writer and no earlier queued writer (write-preferring
fairness, spec section 4.2); an exclusive grant requires
`readers == 0 && !writerHeld`.  The entry's status flips to `Acquired`. -/
def applyGrant (t : Table) (k : ResourceKey) (oid : Nat) : Option Table :=
  match tableGet t k with
  | none => none
  | some r =>
    match r.entries.find? (fun e => e.opId = oid) with
    | none => none
    | some e =>
      match e.status with
      | LockStatus.Acquired => none
      | LockStatus.Blocked =>
        match e.lockType with
        | LockType.Read =>
          if r.writerHeld || blockedWriterBefore r.entries oid then none
          else some (tableSet t k ⟨r.readers + 1, r.writerHeld, r.refCount,
            setAcquired r.entries oid⟩)
        | LockType.Write =>
          if decide (0 < r.readers) || r.writerHeld then none
          else some (tableSet t k ⟨r.readers, true, r.refCount,
            setAcquired r.entries oid⟩)

/-- Modelled from the spec: releasing a held lock removes the caller's
LockEntry, decrements `refCount`, updates the reader count / writer flag,
and evicts the record from the table once `refCount` reaches zero
(spec sections 3 and 4.1). -/
def applyRelease (t : Table) (k : ResourceKey) (oid : Nat) : Option Table :=
  match tableGet t k with
  | none => none
  | some r =>
    match r.entries.find? (fun e => e.opId = oid) with
    | none => none
    | some e =>
      match e.status with
      | LockStatus.Blocked => none
      | LockStatus.Acquired =>
        if r.refCount - 1 = 0 then some (tableRemove t k)
        else some (tableSet t k
          ⟨(match e.lockType with
            | LockType.Read => r.readers - 1
            | LockType.Write => r.readers),
           (match e.lockType with
            | LockType.Read => r.writerHeld
            | LockType.Write => false),
           r.refCount - 1,
           r.entries.filter (fun e2 => e2.opId ≠ oid)⟩)

/-- One event of the lock state machine: a request being queued, a queued
request being granted, or a held lock being released. -/
inductive NSOp where
  | request (k : ResourceKey) (oid : Nat) (lt : LockType) (since : Nat) (src : String)
  | grant (k : ResourceKey) (oid : Nat)
  | release (k : ResourceKey) (oid : Nat)
deriving DecidableEq, Repr

/-- Apply one event to the Lock State Table; `none` when the event is not
enabled in the given state. -/
def applyOp : NSOp → Table → Option Table
  | NSOp.request k oid lt since src, t => applyRequest t k oid lt since src
  | NSOp.grant k oid, t => applyGrant t k oid
  | NSOp.release k oid, t => applyRelease t k oid

/-- Run a sequence of events from a starting table; fails if any event is
not enabled when its turn comes. -/
def runTrace : List NSOp → Table → Option Table
  | [], t => some t
  | op :: rest, t =>
    match applyOp op t with
    | none => none
    | some t2 => runTrace rest t2

/-- Reachability: tables produced by some enabled event sequence starting
from the empty Lock State Table. -/
def Reach (t : Table) : Prop := ∃ tr : List NSOp, runTrace tr [] = some t

/-- Boolean string-prefix test on the underlying character lists,
matching Go's `strings.HasPrefix` byte semantics. -/
def strHasPre (p s : String) : Bool := p.data.isPrefixOf s.data

/-- One row of the instrumentation snapshot (spec section 4.4's LockInfo /
OpsLockState: operation id, lock type, status, since, source, tagged with
the resource key it belongs to). -/
structure LockInfo where
  volume : String
  path : String
  opId : Nat
  lockType : LockType
  status : LockStatus
  since : Nat
  source : String
deriving DecidableEq, Repr

/-- Build the snapshot row for one entry of one key. -/
def mkLockInfo (k : ResourceKey) (e : LockEntry) : LockInfo :=
  ⟨k.volume, k.path, e.opId, e.lockType, e.status, e.since, e.source⟩

/-- Modelled from the spec: `ListLocks(bucket, prefix, relativeDuration)`
(spec section 4.4).  Keeps entries whose key's volume equals `bucket`
exactly and whose path has `pre` as a literal string prefix; an entry
passes the time filter when its age `now - since` (truncated) is at least
`relDur`, so `relDur = 0` performs no time filtering. -/
def listLocksInfo (t : Table) (bucket pre : String) (relDur now : Nat) : List LockInfo :=
  t.flatMap (fun kr =>
    if kr.1.volume = bucket && strHasPre pre kr.1.path then
      (kr.2.entries.filter (fun e => relDur ≤ now - e.since)).map (mkLockInfo kr.1)
    else [])

/-- The concrete scenario of `TestListLocksInfo`
(src/unnamed/part_000): ten shared locks on `(bucket1, prefix1/obj1)`
followed by ten exclusive locks on `(bucket1, prefix1/obj10..19)`,
each request granted immediately. -/
def scenarioTrace : List NSOp :=
  ((List.range 10).flatMap (fun i =>
    [NSOp.request ⟨"bucket1", "prefix1/obj1"⟩ i LockType.Read 0 "test",
     NSOp.grant ⟨"bucket1", "prefix1/obj1"⟩ i])) ++
  ((List.range 10).flatMap (fun i =>
    [NSOp.request ⟨"bucket1", "prefix1/obj" ++ toString (10 + i)⟩ (100 + i)
       LockType.Write 0 "test",
     NSOp.grant ⟨"bucket1", "prefix1/obj" ++ toString (10 + i)⟩ (100 + i)]))

/-- The Lock State Table after running the test scenario. -/
def scenarioTable : Table := (runTrace scenarioTrace []).getD []

end MinioNS

namespace MinioFS

/-- Split a character list at every slash, mirroring the component view of
a Go path (the split of `""` is `[""]`, as with `strings.Split`). -/
def splitSlash : List Char → List (List Char)
  | [] => [[]]
  | c :: rest =>
    match splitSlash rest with
    | [] => [[]]
    | g :: gs => if c = '/' then [] :: g :: gs else (c :: g) :: gs

/-- True when the string begins with a slash (a rooted Go path). -/
def startsSlash (p : String) : Bool :=
  match p.data with
  | [] => false
  | c :: _ => c = '/'

/-- Stack-based processing of already-filtered path components, following
the `..` handling of Go's `path.Clean`: `..` pops a poppable component,
is dropped at the root of a rooted path, and accumulates at the front of
a relative path.  The accumulator holds the output in reverse. -/
def cleanComps (rooted : Bool) : List String → List String → List String
  | acc, [] => acc.reverse
  | acc, c :: rest =>
    if c = ".." then
      match acc with
      | [] => if rooted then cleanComps rooted [] rest else cleanComps rooted [".."] rest
      | top :: accRest =>
        if top = ".." then cleanComps rooted (".." :: top :: accRest) rest
        else cleanComps rooted accRest rest
    else cleanComps rooted (c :: acc) rest

/-- Transliteration of Go's lexical `path.Clean`: empty input cleans to
`"."`; empty and `"."` components are dropped; `".."` components are
resolved against the output; a rooted path keeps its leading slash; an
empty result collapses to `"."` (or `"/"` when rooted). -/
def pathClean (p : String) : String :=
  if p = "" then "."
  else
    let rooted := startsSlash p
    let comps := ((splitSlash p.data).map (fun l => String.mk l)).filter
      (fun c => c != "" && c != ".")
    let joined := String.intercalate "/" (cleanComps rooted [] comps)
    if rooted then "/" ++ joined
    else if joined = "" then "." else joined

/-- The `dir` half of Go's `path.Split`: everything up to and including
the final slash (empty when the path has no slash). -/
def dirPart (p : String) : String :=
  String.mk ((p.data.reverse.dropWhile (fun c => c != '/')).reverse)

/-- Transliteration of Go's `path.Dir` (`pathutil.Dir` in the source):
clean of the directory part.  Its fixed points include `"/"` and `"."`. -/
def goDir (p : String) : String := pathClean (dirPart p)

/-- One object of the modelled filesystem: a literal path string, whether
it is a directory, and a size for regular files. -/
structure FSEntry where
  path : String
  isDir : Bool
  size : Nat
deriving DecidableEq, Repr

/-- The modelled filesystem state: a finite list of existing objects.
Permissions, races and I/O failures are outside the model, so the only
failure modes of the OS layer are absence and non-emptiness. -/
abbrev FS := List FSEntry

/-- Model of `os.Stat`: the (first) entry stored at the exact path. -/
def statFS (fs : FS) (p : String) : Option FSEntry :=
  fs.find? (fun e => e.path == p)

/-- Remove the (first) entry stored at the exact path. -/
def removeFS : FS → String → FS
  | [], _ => []
  | e :: rest, p => if e.path == p then rest else e :: removeFS rest p

/-- Modelled from the spec's interface boundary: `isDirEmpty` of the
repository (not among the visible sources) reads the directory and checks
it has no entries; here a directory is empty when no stored path lies
strictly below it. -/
def isDirEmptyFS (fs : FS) (p : String) : Bool :=
  !(fs.any (fun e => MinioNS.strHasPre (p ++ "/") e.path))

/-- Errors surfaced by the filesystem helpers of fs-v1-helpers.go.  The
`sys` constructors stand for raw Go errors returned unwrapped. -/
inductive FsErr where
  | errInvalidArgument
  | errFileNotFound
  | errFileAccessDenied
  | errVolumeNotFound
  | errVolumeNotEmpty
  | errVolumeExists
  | errVolumeAccessDenied
  | errDiskAccessDenied
  | errIsNotRegular
  | errDiskFull
  | errUnexpected
  | sysNotEmpty
  | sysNotExist
deriving DecidableEq, Repr

/-- Failure modes of the modelled `os.Remove`. -/
inductive RmErr where
  | notExist
  | notEmpty
deriving DecidableEq, Repr

/-- Model of `os.Remove`: deletes a file or an empty directory; fails with
not-exist when the path is absent and with not-empty on a non-empty
directory. -/
def osRemove (fs : FS) (p : String) : Except RmErr FS :=
  match statFS fs p with
  | none => Except.error RmErr.notExist
  | some e =>
    if e.isDir && !(isDirEmptyFS fs p) then Except.error RmErr.notEmpty
    else Except.ok (removeFS fs p)

/-- Modelled from the spec: `checkPathLength` of the repository is not
among the visible sources and the spec places no constraint on path
lengths, so the validator is modelled as always succeeding. -/
def checkPathLength (_p : String) : Option FsErr := none

/-- Ancestor chain of a path along `goDir`, up to the first fixed point;
the fuel bounds the walk and `p.length + 1` always suffices. -/
def ancestors : Nat → String → List String
  | 0, _ => []
  | fuel + 1, p =>
    let d := goDir p
    if d == p then [p] else p :: ancestors fuel d

/-- Model of `mkdirAll`: create every missing ancestor directory of the
path (the implicit roots `"."` and `"/"` are never stored).  Conflicts
with existing files are not modelled as failures. -/
def mkdirAll (fs : FS) (p : String) : FS :=
  (ancestors (p.length + 1) p).foldl
    (fun acc d =>
      if d == "." || d == "/" || (statFS acc d).isSome then acc
      else acc ++ [⟨d, true, 0⟩])
    fs

end MinioFS

namespace MinioFS

/-- Removing a present path shrinks the filesystem by exactly one entry. -/
theorem removeFS_length (fs : FS) (p : String) (e : FSEntry)
    (h : statFS fs p = some e) : (removeFS fs p).length + 1 = fs.length := by
  induction fs with
  | nil => simp [statFS] at h
  | cons hd tl ih =>
    by_cases hp : (hd.path == p) = true
    · simp [removeFS, hp]
    · have hp2 : (hd.path == p) = false := by simpa using hp
      unfold statFS at h
      rw [List.find?_cons_of_neg _ (by simp [hp2])] at h
      have hlen := ih h
      simp only [removeFS, hp2, Bool.false_eq_true, if_false, List.length_cons]
      omega

/-- A successful modelled `os.Remove` shrinks the filesystem. -/
theorem osRemove_length (fs fs2 : FS) (p : String)
    (h : osRemove fs p = Except.ok fs2) : fs2.length < fs.length := by
  unfold osRemove at h
  split at h
  · cases h
  · rename_i e hst
    split at h
    · cases h
    · cases h
      have := removeFS_length fs p e hst
      omega

/-- Embedding of `fsDeleteFile` (src/cmd/fs-v1-helpers.go, lines 326-373):
delete the path, then recurse on its `pathutil.Dir` parent; equality with
`basePath` returns nil before anything is touched; a non-empty directory
returns nil silently; a missing path is `errFileNotFound`.  The recursion
is well-founded because every recursive call follows a successful removal
of an existing object. -/
def fsDeleteFile (fs : FS) (basePath deletePath : String) : FS × Except FsErr Unit :=
  match checkPathLength basePath with
  | some e => (fs, Except.error e)
  | none =>
    match checkPathLength deletePath with
    | some e => (fs, Except.error e)
    | none =>
      if basePath = deletePath then (fs, Except.ok ())
      else
        match statFS fs deletePath with
        | none => (fs, Except.error FsErr.errFileNotFound)
        | some pathSt =>
          if pathSt.isDir && !(isDirEmptyFS fs deletePath) then (fs, Except.ok ())
          else
            match hrm : osRemove fs deletePath with
            | Except.error RmErr.notExist => (fs, Except.error FsErr.errFileNotFound)
            | Except.error RmErr.notEmpty => (fs, Except.error FsErr.errVolumeNotEmpty)
            | Except.ok fs2 => fsDeleteFile fs2 basePath (goDir deletePath)
termination_by fs.length
decreasing_by exact osRemove_length fs _ deletePath hrm

/-- Fuel-indexed copy of `fsDeleteFile`, used to state the explicit depth
bound of the upward walk: `none` means the fuel ran out. -/
def fsDeleteFileFuel : Nat → FS → String → String → Option (FS × Except FsErr Unit)
  | 0, _, _, _ => none
  | fuel + 1, fs, basePath, deletePath =>
    match checkPathLength basePath with
    | some e => some (fs, Except.error e)
    | none =>
      match checkPathLength deletePath with
      | some e => some (fs, Except.error e)
      | none =>
        if basePath = deletePath then some (fs, Except.ok ())
        else
          match statFS fs deletePath with
          | none => some (fs, Except.error FsErr.errFileNotFound)
          | some pathSt =>
            if pathSt.isDir && !(isDirEmptyFS fs deletePath) then some (fs, Except.ok ())
            else
              match osRemove fs deletePath with
              | Except.error RmErr.notExist => some (fs, Except.error FsErr.errFileNotFound)
              | Except.error RmErr.notEmpty => some (fs, Except.error FsErr.errVolumeNotEmpty)
              | Except.ok fs2 => fsDeleteFileFuel fuel fs2 basePath (goDir deletePath)

/-- Embedding of `fsRemoveFile` (fs-v1-helpers.go, lines 28-47): empty
path is invalid; a missing path maps to `errFileNotFound`; removing a
non-empty directory surfaces the raw not-empty error. -/
def fsRemoveFile (fs : FS) (filePath : String) : FS × Except FsErr Unit :=
  if filePath = "" then (fs, Except.error FsErr.errInvalidArgument)
  else
    match checkPathLength filePath with
    | some e => (fs, Except.error e)
    | none =>
      match osRemove fs filePath with
      | Except.error RmErr.notExist => (fs, Except.error FsErr.errFileNotFound)
      | Except.error RmErr.notEmpty => (fs, Except.error FsErr.sysNotEmpty)
      | Except.ok fs2 => (fs2, Except.ok ())

/-- Model of `removeAll`: drop the path and everything below it. -/
def removeAllFS (fs : FS) (p : String) : FS :=
  fs.filter (fun e => !(e.path == p || MinioNS.strHasPre (p ++ "/") e.path))

/-- Embedding of `fsRemoveAll` (fs-v1-helpers.go, lines 51-68): empty path
is invalid; otherwise the subtree is removed (removal of a missing path
succeeds, as with Go's `os.RemoveAll`). -/
def fsRemoveAll (fs : FS) (dirPath : String) : FS × Except FsErr Unit :=
  if dirPath = "" then (fs, Except.error FsErr.errInvalidArgument)
  else
    match checkPathLength dirPath with
    | some e => (fs, Except.error e)
    | none => (removeAllFS fs dirPath, Except.ok ())

/-- Embedding of `fsRemoveDir` (fs-v1-helpers.go, lines 72-90): empty path
is invalid; a missing path maps to `errVolumeNotFound` and a non-empty
directory to `errVolumeNotEmpty`. -/
def fsRemoveDir (fs : FS) (dirPath : String) : FS × Except FsErr Unit :=
  if dirPath = "" then (fs, Except.error FsErr.errInvalidArgument)
  else
    match checkPathLength dirPath with
    | some e => (fs, Except.error e)
    | none =>
      match osRemove fs dirPath with
      | Except.error RmErr.notExist => (fs, Except.error FsErr.errVolumeNotFound)
      | Except.error RmErr.notEmpty => (fs, Except.error FsErr.errVolumeNotEmpty)
      | Except.ok fs2 => (fs2, Except.ok ())

/-- True when the parent directory of a path exists (the implicit roots
`"."` and `"/"` always exist). -/
def parentExists (fs : FS) (p : String) : Bool :=
  let d := goDir p
  d == "." || d == "/" ||
    (match statFS fs d with
     | some e => e.isDir
     | none => false)

/-- Embedding of `fsMkdir` (fs-v1-helpers.go, lines 96-121): empty path is
invalid; an existing path maps to `errVolumeExists`; a missing or
non-directory parent maps to `errDiskAccessDenied` (the not-a-directory /
path-not-found branches of the source). -/
def fsMkdir (fs : FS) (dirPath : String) : FS × Except FsErr Unit :=
  if dirPath = "" then (fs, Except.error FsErr.errInvalidArgument)
  else
    match checkPathLength dirPath with
    | some e => (fs, Except.error e)
    | none =>
      match statFS fs dirPath with
      | some _ => (fs, Except.error FsErr.errVolumeExists)
      | none =>
        if parentExists fs dirPath then (fs ++ [⟨dirPath, true, 0⟩], Except.ok ())
        else (fs, Except.error FsErr.errDiskAccessDenied)

/-- Embedding of `fsStatDir` (fs-v1-helpers.go, lines 125-148): empty path
is invalid; a missing path maps to `errVolumeNotFound`; a non-directory
maps to `errVolumeAccessDenied`.  The query never mutates the filesystem,
so only the result is returned. -/
def fsStatDir (fs : FS) (statDir : String) : Except FsErr FSEntry :=
  if statDir = "" then Except.error FsErr.errInvalidArgument
  else
    match checkPathLength statDir with
    | some e => Except.error e
    | none =>
      match statFS fs statDir with
      | none => Except.error FsErr.errVolumeNotFound
      | some fi =>
        if !fi.isDir then Except.error FsErr.errVolumeAccessDenied
        else Except.ok fi

/-- Embedding of `fsStatFile` (fs-v1-helpers.go, lines 151-177): empty
path is invalid; a missing path or a directory maps to
`errFileNotFound`. -/
def fsStatFile (fs : FS) (statFile : String) : Except FsErr FSEntry :=
  if statFile = "" then Except.error FsErr.errInvalidArgument
  else
    match checkPathLength statFile with
    | some e => Except.error e
    | none =>
      match statFS fs statFile with
      | none => Except.error FsErr.errFileNotFound
      | some fi =>
        if fi.isDir then Except.error FsErr.errFileNotFound
        else Except.ok fi

/-- Embedding of `fsOpenFile` (fs-v1-helpers.go, lines 181-226): empty
path or negative offset is invalid; a missing path maps to
`errFileNotFound`; a non-regular file (a directory here) maps to
`errIsNotRegular`.  On success the source returns the stream and the full
file size, modelled as the size. -/
def fsOpenFile (fs : FS) (readPath : String) (offset : Int) : Except FsErr Nat :=
  if readPath = "" || decide (offset < 0) then Except.error FsErr.errInvalidArgument
  else
    match checkPathLength readPath with
    | some e => Except.error e
    | none =>
      match statFS fs readPath with
      | none => Except.error FsErr.errFileNotFound
      | some fi =>
        if fi.isDir then Except.error FsErr.errIsNotRegular
        else Except.ok fi.size

/-- Store a regular file of the given size at a path, replacing an
existing entry at the exact same path. -/
def setFileFS (fs : FS) (p : String) (n : Nat) : FS :=
  match statFS fs p with
  | some _ => fs.map (fun e => if e.path == p then ⟨p, false, n⟩ else e)
  | none => fs ++ [⟨p, false, n⟩]

/-- Embedding of `fsCreateFile` (fs-v1-helpers.go, lines 229-265): empty
path, nil reader or nil staging buffer is invalid; otherwise the parent
directories are created and the reader's bytes (modelled by their count)
are copied into the file; the byte count is returned.  `fallocSize` only
pre-allocates and has no modelled effect. -/
def fsCreateFile (fs : FS) (tempObjPath : String) (reader : Option Nat)
    (buf : Option Nat) (_fallocSize : Int) : FS × Except FsErr Nat :=
  if tempObjPath = "" || reader = none || buf = none then
    (fs, Except.error FsErr.errInvalidArgument)
  else
    match checkPathLength tempObjPath with
    | some e => (fs, Except.error e)
    | none =>
      let n := reader.getD 0
      let fs1 := mkdirAll fs (goDir tempObjPath)
      (setFileFS fs1 tempObjPath n, Except.ok n)

/-- Embedding of `fsRenameFile` (fs-v1-helpers.go, lines 314-322): create
the destination's parents, then rename; note the absence of any argument
validation.  A missing source surfaces the raw not-exist error. -/
def fsRenameFile (fs : FS) (sourcePath destPath : String) : FS × Except FsErr Unit :=
  let fs1 := mkdirAll fs (goDir destPath)
  match statFS fs1 sourcePath with
  | none => (fs1, Except.error FsErr.sysNotExist)
  | some _ =>
    (fs1.map (fun e =>
      if e.path == sourcePath then { e with path := destPath }
      else if MinioNS.strHasPre (sourcePath ++ "/") e.path then
        { e with path := destPath ++ e.path.drop sourcePath.length }
      else e), Except.ok ())

/-- Modelled from the spec's interface boundary: the repository's
`pathJoin` (not among the visible sources) joins path elements with a
slash and cleans the result. -/
def pathJoin (a b : String) : String := pathClean (a ++ "/" ++ b)

/-- Modelled from the spec's interface boundary: the repository's
`readDir` (not among the visible sources) lists the names of the
immediate children of a directory and fails with `errFileNotFound` when
the directory is missing. -/
def readDirFS (fs : FS) (p : String) : Except FsErr (List String) :=
  match statFS fs p with
  | none => Except.error FsErr.errFileNotFound
  | some e =>
    if !e.isDir then Except.error FsErr.errFileNotFound
    else Except.ok (((fs.filter (fun q => MinioNS.strHasPre (p ++ "/") q.path)).map
      (fun q => q.path.drop (p.length + 1))).filter
      (fun name => name.data.all (fun c => c != '/')))

/-- The entry loop of `fsRemoveUploadIDPath`: delete each listed child via
`fsDeleteFile`, stopping at the first error other than
`errFileNotFound`. -/
def removeEntriesLoop (fs : FS) (basePath uploadIDPath : String) :
    List String → FS × Except FsErr Unit
  | [] => (fs, Except.ok ())
  | name :: rest =>
    match fsDeleteFile fs basePath (pathJoin uploadIDPath name) with
    | (fs2, Except.error e) =>
      if e ≠ FsErr.errFileNotFound then (fs2, Except.error e)
      else removeEntriesLoop fs2 basePath uploadIDPath rest
    | (fs2, Except.ok _) => removeEntriesLoop fs2 basePath uploadIDPath rest

/-- Embedding of `fsRemoveUploadIDPath` (fs-v1-helpers.go, lines 268-288):
empty base path or upload-id path is invalid; the children of the
upload-id path are then deleted one by one, ignoring
`errFileNotFound`. -/
def fsRemoveUploadIDPath (fs : FS) (basePath uploadIDPath : String) :
    FS × Except FsErr Unit :=
  if basePath = "" || uploadIDPath = "" then (fs, Except.error FsErr.errInvalidArgument)
  else
    match readDirFS fs uploadIDPath with
    | Except.error e =>
      if e ≠ FsErr.errFileNotFound then (fs, Except.error e) else (fs, Except.ok ())
    | Except.ok entries => removeEntriesLoop fs basePath uploadIDPath entries

end MinioFS


namespace MinioNS

/-- Keys currently bound in the table, in storage order. -/
def keysOf (t : Table) : List ResourceKey := t.map Prod.fst

theorem tableGet_tableSet_self (t : Table) (k : ResourceKey) (r : LockRecord) :
    tableGet (tableSet t k r) k = some r := by
  induction t with
  | nil => simp [tableSet, tableGet]
  | cons hd tl ih =>
    obtain ⟨k1, r1⟩ := hd
    by_cases h : k1 = k
    · simp [tableSet, tableGet, h]
    · simp [tableSet, tableGet, h, ih]

theorem tableGet_tableSet_ne (t : Table) (k k2 : ResourceKey) (r : LockRecord)
    (h : k2 ≠ k) : tableGet (tableSet t k r) k2 = tableGet t k2 := by
  induction t with
  | nil =>
    simp only [tableSet, tableGet]
    rw [if_neg (Ne.symm h)]
  | cons hd tl ih =>
    obtain ⟨k1, r1⟩ := hd
    by_cases hh : k1 = k
    · subst hh
      simp only [tableSet, if_pos rfl, tableGet]
      rw [if_neg (Ne.symm h), if_neg (Ne.symm h)]
    · simp only [tableSet, if_neg hh, tableGet]
      by_cases hk2 : k1 = k2
      · rw [if_pos hk2, if_pos hk2]
      · rw [if_neg hk2, if_neg hk2]
        exact ih

theorem tableRemove_sublist (t : Table) (k : ResourceKey) :
    (tableRemove t k).Sublist t := by
  induction t with
  | nil => simp [tableRemove]
  | cons hd tl ih =>
    obtain ⟨k1, r1⟩ := hd
    by_cases h : k1 = k
    · simpa [tableRemove, h] using List.sublist_cons_self (k1, r1) tl
    · simpa [tableRemove, h] using ih.cons₂ (k1, r1)

theorem tableGet_tableRemove_ne (t : Table) (k k2 : ResourceKey) (h : k2 ≠ k) :
    tableGet (tableRemove t k) k2 = tableGet t k2 := by
  induction t with
  | nil => simp [tableRemove]
  | cons hd tl ih =>
    obtain ⟨k1, r1⟩ := hd
    by_cases hh : k1 = k
    · subst hh
      simp [tableRemove, tableGet, Ne.symm h]
    · simp only [tableRemove, if_neg hh, tableGet]
      by_cases hk2 : k1 = k2
      · rw [if_pos hk2, if_pos hk2]
      · rw [if_neg hk2, if_neg hk2]
        exact ih

theorem mem_keysOf_of_tableGet (t : Table) (k : ResourceKey) (r : LockRecord)
    (h : tableGet t k = some r) : k ∈ keysOf t := by
  induction t with
  | nil => simp [tableGet] at h
  | cons hd tl ih =>
    obtain ⟨k1, r1⟩ := hd
    by_cases hh : k1 = k
    · simp [keysOf, hh]
    · simp only [tableGet, if_neg hh] at h
      simp only [keysOf, List.map_cons, List.mem_cons]
      exact Or.inr (ih h)

theorem tableGet_tableRemove_self (t : Table) (k : ResourceKey)
    (hnd : (keysOf t).Nodup) : tableGet (tableRemove t k) k = none := by
  induction t with
  | nil => simp [tableRemove, tableGet]
  | cons hd tl ih =>
    obtain ⟨k1, r1⟩ := hd
    simp only [keysOf, List.map_cons, List.nodup_cons] at hnd
    by_cases hh : k1 = k
    · subst hh
      simp only [tableRemove, if_pos rfl]
      cases hg : tableGet tl k1 with
      | none => exact hg
      | some r2 => exact absurd (mem_keysOf_of_tableGet tl k1 r2 hg) hnd.1
    · simp only [tableRemove, if_neg hh, tableGet]
      exact ih hnd.2

theorem mem_keysOf_tableSet (t : Table) (k k3 : ResourceKey) (r : LockRecord)
    (h : k3 ∈ keysOf (tableSet t k r)) : k3 ∈ keysOf t ∨ k3 = k := by
  induction t with
  | nil =>
    simp only [tableSet, keysOf, List.map_cons, List.map_nil, List.mem_singleton] at h
    exact Or.inr h
  | cons hd tl ih =>
    obtain ⟨k1, r1⟩ := hd
    by_cases hh : k1 = k
    · subst hh
      simp only [keysOf] at h
      rw [show tableSet ((k1, r1) :: tl) k1 r = (k1, r) :: tl from by simp [tableSet]] at h
      simp only [List.map_cons, List.mem_cons] at h
      rcases h with h | h
      · exact Or.inr h
      · exact Or.inl (by simp only [keysOf, List.map_cons, List.mem_cons]; exact Or.inr h)
    · simp only [tableSet, if_neg hh, keysOf, List.map_cons, List.mem_cons] at h
      rcases h with h | h
      · exact Or.inl (by simp [keysOf, h])
      · rcases ih h with h2 | h2
        · exact Or.inl (by simp only [keysOf, List.map_cons, List.mem_cons]; exact Or.inr h2)
        · exact Or.inr h2

theorem keysOf_nodup_tableSet (t : Table) (k : ResourceKey) (r : LockRecord)
    (hnd : (keysOf t).Nodup) : (keysOf (tableSet t k r)).Nodup := by
  induction t with
  | nil => simp [tableSet, keysOf]
  | cons hd tl ih =>
    obtain ⟨k1, r1⟩ := hd
    simp only [keysOf, List.map_cons, List.nodup_cons] at hnd
    by_cases hh : k1 = k
    · subst hh
      rw [show tableSet ((k1, r1) :: tl) k1 r = (k1, r) :: tl from by simp [tableSet]]
      simp only [keysOf, List.map_cons, List.nodup_cons]
      exact ⟨hnd.1, hnd.2⟩
    · simp only [tableSet, if_neg hh, keysOf, List.map_cons, List.nodup_cons]
      refine ⟨?_, ih hnd.2⟩
      intro hmem
      rcases mem_keysOf_tableSet tl k k1 r hmem with h2 | h2
      · exact hnd.1 h2
      · exact hh h2

theorem keysOf_nodup_tableRemove (t : Table) (k : ResourceKey)
    (hnd : (keysOf t).Nodup) : (keysOf (tableRemove t k)).Nodup :=
  ((tableRemove_sublist t k).map Prod.fst).nodup hnd

theorem tableGet_of_mem (t : Table) (kr : ResourceKey × LockRecord)
    (hnd : (keysOf t).Nodup) (hm : kr ∈ t) : tableGet t kr.1 = some kr.2 := by
  induction t with
  | nil => cases hm
  | cons hd tl ih =>
    obtain ⟨k1, r1⟩ := hd
    simp only [keysOf, List.map_cons, List.nodup_cons] at hnd
    rcases List.mem_cons.mp hm with h | h
    · subst h
      simp [tableGet]
    · have hne : k1 ≠ kr.1 := by
        intro he
        exact hnd.1 (he ▸ List.mem_map_of_mem Prod.fst h)
      simp only [tableGet, if_neg hne]
      exact ih hnd.2 h

/-- Per-record well-formedness: `refCount` counts the entries, a
referenced record is never empty, operation ids are unique on a key, and
readers and a writer are never simultaneously active. -/
def recWF (r : LockRecord) : Prop :=
  r.refCount = r.entries.length ∧ 0 < r.refCount ∧
  (r.entries.map LockEntry.opId).Nodup ∧ ¬(0 < r.readers ∧ r.writerHeld = true)

/-- Table well-formedness: keys are unique and every bound record is
well-formed. -/
def WF (t : Table) : Prop :=
  (keysOf t).Nodup ∧ ∀ k r, tableGet t k = some r → recWF r

theorem WF_empty : WF ([] : Table) := by
  constructor
  · simp [keysOf]
  · intro k r h
    simp [tableGet] at h

theorem setAcquired_length (es : List LockEntry) (oid : Nat) :
    (setAcquired es oid).length = es.length := by
  simp [setAcquired]

theorem setAcquired_opId_eq (e : LockEntry) (oid : Nat) :
    (if e.opId = oid then { e with status := LockStatus.Acquired } else e).opId = e.opId := by
  by_cases h : e.opId = oid <;> simp [h]

theorem setAcquired_opIds (es : List LockEntry) (oid : Nat) :
    (setAcquired es oid).map LockEntry.opId = es.map LockEntry.opId := by
  induction es with
  | nil => rfl
  | cons e rest ih =>
    simp only [setAcquired, List.map_cons, setAcquired_opId_eq, List.cons.injEq, true_and]
    simpa [setAcquired] using ih

end MinioNS

namespace MinioNS

/-- Removing the unique entry carrying a given operation id shrinks the
entry list by exactly one. -/
theorem filter_ne_length (es : List LockEntry) (e : LockEntry) (oid : Nat)
    (hmem : e ∈ es) (heq : e.opId = oid) (hnd : (es.map LockEntry.opId).Nodup) :
    (es.filter (fun e2 => e2.opId ≠ oid)).length + 1 = es.length := by
  induction es with
  | nil => cases hmem
  | cons hd rest ih =>
    simp only [List.map_cons, List.nodup_cons] at hnd
    by_cases hh : hd.opId = oid
    · have hrest : ∀ e2 ∈ rest, e2.opId ≠ oid := by
        intro e2 he2 hcon
        exact hnd.1 (by rw [hh, ← hcon]; exact List.mem_map_of_mem LockEntry.opId he2)
      have hfr : rest.filter (fun e2 => e2.opId ≠ oid) = rest := by
        rw [List.filter_eq_self]
        intro a ha
        simpa using hrest a ha
      rw [List.filter_cons, if_neg (by simp [hh]), hfr]
      simp
    · have hmem2 : e ∈ rest := by
        rcases List.mem_cons.mp hmem with h | h
        · rw [h] at heq; exact absurd heq hh
        · exact h
      have hlen := ih hmem2 hnd.2
      rw [List.filter_cons, if_pos (by simp [hh])]
      simp only [List.length_cons]
      omega

theorem WF_applyRequest (t t2 : Table) (k : ResourceKey) (oid : Nat) (lt : LockType)
    (since : Nat) (src : String) (hwf : WF t)
    (h : applyRequest t k oid lt since src = some t2) : WF t2 := by
  unfold applyRequest at h
  split at h
  · rename_i hget
    cases h
    constructor
    · exact keysOf_nodup_tableSet t k _ hwf.1
    · intro k2 r2 hg2
      by_cases hk : k2 = k
      · subst hk
        rw [tableGet_tableSet_self] at hg2
        cases hg2
        refine ⟨by simp, by simp, by simp, by simp⟩
      · rw [tableGet_tableSet_ne t k k2 _ hk] at hg2
        exact hwf.2 k2 r2 hg2
  · rename_i r hget
    split at h
    · cases h
    · rename_i hany
      cases h
      have hr := hwf.2 k r hget
      constructor
      · exact keysOf_nodup_tableSet t k _ hwf.1
      · intro k2 r2 hg2
        by_cases hk : k2 = k
        · subst hk
          rw [tableGet_tableSet_self] at hg2
          cases hg2
          have hnotin : oid ∉ r.entries.map LockEntry.opId := by
            simp only [List.any_eq_true, decide_eq_true_eq, not_exists, not_and] at hany
            simp only [List.mem_map, not_exists, not_and]
            intro e2 he2 hcon
            exact hany e2 he2 hcon
          refine ⟨?_, ?_, ?_, ?_⟩
          · simp [hr.1]
          · simp
          · simp only [List.map_append, List.map_cons, List.map_nil]
            rw [List.nodup_append]
            exact ⟨hr.2.2.1, List.nodup_singleton oid, by
              intro a ha hb
              simp only [List.mem_singleton] at hb
              exact hnotin (hb ▸ ha)⟩
          · simpa using hr.2.2.2
        · rw [tableGet_tableSet_ne t k k2 _ hk] at hg2
          exact hwf.2 k2 r2 hg2

theorem WF_applyGrant (t t2 : Table) (k : ResourceKey) (oid : Nat) (hwf : WF t)
    (h : applyGrant t k oid = some t2) : WF t2 := by
  unfold applyGrant at h
  split at h
  · cases h
  · rename_i r hget
    have hr := hwf.2 k r hget
    split at h
    · cases h
    · rename_i e hfind
      split at h
      · cases h
      · split at h
        · -- Read grant
          split at h
          · cases h
          · rename_i hguard
            cases h
            simp only [Bool.not_eq_true, Bool.or_eq_false_iff] at hguard
            constructor
            · exact keysOf_nodup_tableSet t k _ hwf.1
            · intro k2 r2 hg2
              by_cases hk : k2 = k
              · subst hk
                rw [tableGet_tableSet_self] at hg2
                cases hg2
                refine ⟨?_, ?_, ?_, ?_⟩
                · simp [setAcquired_length, hr.1]
                · exact hr.2.1
                · simpa [setAcquired_opIds] using hr.2.2.1
                · simp [hguard.1]
              · rw [tableGet_tableSet_ne t k k2 _ hk] at hg2
                exact hwf.2 k2 r2 hg2
        · -- Write grant
          split at h
          · cases h
          · rename_i hguard
            cases h
            simp only [Bool.not_eq_true, Bool.or_eq_false_iff, decide_eq_false_iff_not,
              Nat.not_lt, Nat.le_zero] at hguard
            constructor
            · exact keysOf_nodup_tableSet t k _ hwf.1
            · intro k2 r2 hg2
              by_cases hk : k2 = k
              · subst hk
                rw [tableGet_tableSet_self] at hg2
                cases hg2
                refine ⟨?_, ?_, ?_, ?_⟩
                · simp [setAcquired_length, hr.1]
                · exact hr.2.1
                · simpa [setAcquired_opIds] using hr.2.2.1
                · simp [hguard.1]
              · rw [tableGet_tableSet_ne t k k2 _ hk] at hg2
                exact hwf.2 k2 r2 hg2

theorem WF_applyRelease (t t2 : Table) (k : ResourceKey) (oid : Nat) (hwf : WF t)
    (h : applyRelease t k oid = some t2) : WF t2 := by
  unfold applyRelease at h
  split at h
  · cases h
  · rename_i r hget
    have hr := hwf.2 k r hget
    split at h
    · cases h
    · rename_i e hfind
      split at h
      · cases h
      · have hmem := List.mem_of_find?_eq_some hfind
        have hoid : e.opId = oid := by
          have := List.find?_some hfind
          simpa using this
        split at h
        · -- eviction when refCount reaches zero
          cases h
          constructor
          · exact keysOf_nodup_tableRemove t k hwf.1
          · intro k2 r2 hg2
            by_cases hk : k2 = k
            · subst hk
              rw [tableGet_tableRemove_self _ _ hwf.1] at hg2
              cases hg2
            · rw [tableGet_tableRemove_ne t k k2 hk] at hg2
              exact hwf.2 k2 r2 hg2
        · rename_i hpos
          cases h
          constructor
          · exact keysOf_nodup_tableSet t k _ hwf.1
          · intro k2 r2 hg2
            by_cases hk : k2 = k
            · subst hk
              rw [tableGet_tableSet_self] at hg2
              cases hg2
              have hflen := filter_ne_length r.entries e oid hmem hoid hr.2.2.1
              have hrc := hr.1
              refine ⟨?_, ?_, ?_, ?_⟩
              · simp only []
                omega
              · simpa using Nat.pos_of_ne_zero hpos
              · exact ((List.filter_sublist _).map LockEntry.opId).nodup hr.2.2.1
              · cases hlt : e.lockType with
                | Read =>
                  intro hcon
                  simp only [] at hcon
                  exact hr.2.2.2 ⟨by omega, hcon.2⟩
                | Write => simp
            · rw [tableGet_tableSet_ne t k k2 _ hk] at hg2
              exact hwf.2 k2 r2 hg2

theorem WF_applyOp (op : NSOp) (t t2 : Table) (h : applyOp op t = some t2)
    (hwf : WF t) : WF t2 := by
  cases op with
  | request k oid lt since src => exact WF_applyRequest t t2 k oid lt since src hwf h
  | grant k oid => exact WF_applyGrant t t2 k oid hwf h
  | release k oid => exact WF_applyRelease t t2 k oid hwf h

theorem WF_runTrace (tr : List NSOp) (t t2 : Table) (h : runTrace tr t = some t2)
    (hwf : WF t) : WF t2 := by
  induction tr generalizing t with
  | nil =>
    simp only [runTrace] at h
    cases h
    exact hwf
  | cons op rest ih =>
    simp only [runTrace] at h
    split at h
    · cases h
    · rename_i t3 happ
      exact ih t3 h (WF_applyOp op t t3 happ hwf)

theorem Reach_WF (t : Table) (h : Reach t) : WF t := by
  obtain ⟨tr, htr⟩ := h
  exact WF_runTrace tr [] t htr WF_empty

end MinioNS

namespace MinioNS

/-- Reference count currently recorded for a key (zero when absent). -/
def refCountOf (t : Table) (k : ResourceKey) : Nat :=
  match tableGet t k with
  | none => 0
  | some r => r.refCount

/-- Number of requests (acquire operations) on a key in an event list. -/
def countReq (k : ResourceKey) : List NSOp → Nat
  | [] => 0
  | NSOp.request k2 _ _ _ _ :: rest => (if k2 = k then 1 else 0) + countReq k rest
  | _ :: rest => countReq k rest

/-- Number of releases on a key in an event list. -/
def countRel (k : ResourceKey) : List NSOp → Nat
  | [] => 0
  | NSOp.release k2 _ :: rest => (if k2 = k then 1 else 0) + countRel k rest
  | _ :: rest => countRel k rest

theorem refCountOf_tableSet_self (t : Table) (k : ResourceKey) (r : LockRecord) :
    refCountOf (tableSet t k r) k = r.refCount := by
  unfold refCountOf
  rw [tableGet_tableSet_self]

theorem refCountOf_tableSet_ne (t : Table) (k k2 : ResourceKey) (r : LockRecord)
    (h : k2 ≠ k) : refCountOf (tableSet t k r) k2 = refCountOf t k2 := by
  unfold refCountOf
  rw [tableGet_tableSet_ne t k k2 r h]

theorem refCountOf_applyRequest (t t2 : Table) (k k2 : ResourceKey) (oid : Nat)
    (lt : LockType) (since : Nat) (src : String)
    (h : applyRequest t k2 oid lt since src = some t2) :
    refCountOf t2 k = refCountOf t k + (if k2 = k then 1 else 0) := by
  unfold applyRequest at h
  split at h
  · rename_i hget
    cases h
    by_cases hk : k2 = k
    · subst hk
      have h1 : refCountOf t k2 = 0 := by
        unfold refCountOf
        rw [hget]
      rw [refCountOf_tableSet_self, if_pos rfl, h1]
    · rw [refCountOf_tableSet_ne t k2 k _ (Ne.symm hk), if_neg hk]
      omega
  · rename_i r hget
    split at h
    · cases h
    · cases h
      by_cases hk : k2 = k
      · subst hk
        have h1 : refCountOf t k2 = r.refCount := by
          unfold refCountOf
          rw [hget]
        rw [refCountOf_tableSet_self, if_pos rfl, h1]
      · rw [refCountOf_tableSet_ne t k2 k _ (Ne.symm hk), if_neg hk]
        omega

theorem refCountOf_applyGrant (t t2 : Table) (k k2 : ResourceKey) (oid : Nat)
    (h : applyGrant t k2 oid = some t2) : refCountOf t2 k = refCountOf t k := by
  unfold applyGrant at h
  split at h
  · cases h
  · rename_i r hget
    split at h
    · cases h
    · split at h
      · cases h
      · split at h
        · split at h
          · cases h
          · cases h
            by_cases hk : k2 = k
            · subst hk
              have h1 : refCountOf t k2 = r.refCount := by
                unfold refCountOf
                rw [hget]
              rw [refCountOf_tableSet_self, h1]
            · rw [refCountOf_tableSet_ne t k2 k _ (Ne.symm hk)]
        · split at h
          · cases h
          · cases h
            by_cases hk : k2 = k
            · subst hk
              have h1 : refCountOf t k2 = r.refCount := by
                unfold refCountOf
                rw [hget]
              rw [refCountOf_tableSet_self, h1]
            · rw [refCountOf_tableSet_ne t k2 k _ (Ne.symm hk)]

theorem refCountOf_applyRelease (t t2 : Table) (k k2 : ResourceKey) (oid : Nat)
    (hwf : WF t) (h : applyRelease t k2 oid = some t2) :
    refCountOf t2 k + (if k2 = k then 1 else 0) = refCountOf t k := by
  unfold applyRelease at h
  split at h
  · cases h
  · rename_i r hget
    have hpos := (hwf.2 k2 r hget).2.1
    split at h
    · cases h
    · split at h
      · cases h
      · split at h
        · rename_i hzero
          cases h
          by_cases hk : k2 = k
          · subst hk
            have h1 : refCountOf (tableRemove t k2) k2 = 0 := by
              unfold refCountOf
              rw [tableGet_tableRemove_self t k2 hwf.1]
            have h2 : refCountOf t k2 = r.refCount := by
              unfold refCountOf
              rw [hget]
            rw [if_pos rfl, h1, h2]
            omega
          · rw [if_neg hk]
            unfold refCountOf
            rw [tableGet_tableRemove_ne t k2 k (Ne.symm hk)]
            omega
        · rename_i hnz
          cases h
          by_cases hk : k2 = k
          · subst hk
            have h2 : refCountOf t k2 = r.refCount := by
              unfold refCountOf
              rw [hget]
            rw [if_pos rfl, refCountOf_tableSet_self, h2]
            show r.refCount - 1 + 1 = r.refCount
            omega
          · rw [if_neg hk, refCountOf_tableSet_ne t k2 k _ (Ne.symm hk)]
            omega

theorem refCount_runTrace (tr : List NSOp) (t t2 : Table) (k : ResourceKey)
    (hwf : WF t) (h : runTrace tr t = some t2) :
    refCountOf t2 k + countRel k tr = refCountOf t k + countReq k tr := by
  induction tr generalizing t with
  | nil =>
    simp only [runTrace] at h
    cases h
    simp [countReq, countRel]
  | cons op rest ih =>
    simp only [runTrace] at h
    split at h
    · cases h
    · rename_i t3 happ
      have hwf3 := WF_applyOp op t t3 happ hwf
      have hrec := ih t3 hwf3 h
      cases op with
      | request k2 oid lt since src =>
        have hstep := refCountOf_applyRequest t t3 k k2 oid lt since src happ
        simp only [countReq, countRel]
        omega
      | grant k2 oid =>
        have hstep := refCountOf_applyGrant t t3 k k2 oid happ
        simp only [countReq, countRel]
        omega
      | release k2 oid =>
        have hstep := refCountOf_applyRelease t t3 k k2 oid hwf happ
        simp only [countReq, countRel]
        omega

theorem tableGet_none_of_refCountOf_zero (t : Table) (k : ResourceKey)
    (hwf : WF t) (h : refCountOf t k = 0) : tableGet t k = none := by
  cases hg : tableGet t k with
  | none => rfl
  | some r =>
    have hpos := (hwf.2 k r hg).2.1
    unfold refCountOf at h
    rw [hg] at h
    have h2 : r.refCount = 0 := h
    omega

/-- A step can only drop a key's record when it is the release bringing
that record's reference count from one to zero. -/
theorem removal_characterization (s s2 : Table) (op : NSOp) (k : ResourceKey)
    (rec : LockRecord) (hwf : WF s) (happ : applyOp op s = some s2)
    (hget : tableGet s k = some rec) (hgone : tableGet s2 k = none) :
    rec.refCount = 1 ∧ ∃ oid : Nat, op = NSOp.release k oid := by
  cases op with
  | request k2 oid lt since src =>
    exfalso
    simp only [applyOp] at happ
    unfold applyRequest at happ
    split at happ
    · cases happ
      by_cases hk : k2 = k
      · subst hk
        rw [tableGet_tableSet_self] at hgone
        cases hgone
      · rw [tableGet_tableSet_ne s k2 k _ (Ne.symm hk), hget] at hgone
        cases hgone
    · split at happ
      · cases happ
      · cases happ
        by_cases hk : k2 = k
        · subst hk
          rw [tableGet_tableSet_self] at hgone
          cases hgone
        · rw [tableGet_tableSet_ne s k2 k _ (Ne.symm hk), hget] at hgone
          cases hgone
  | grant k2 oid =>
    exfalso
    simp only [applyOp] at happ
    unfold applyGrant at happ
    split at happ
    · cases happ
    · split at happ
      · cases happ
      · split at happ
        · cases happ
        · split at happ
          · split at happ
            · cases happ
            · cases happ
              by_cases hk : k2 = k
              · subst hk
                rw [tableGet_tableSet_self] at hgone
                cases hgone
              · rw [tableGet_tableSet_ne s k2 k _ (Ne.symm hk), hget] at hgone
                cases hgone
          · split at happ
            · cases happ
            · cases happ
              by_cases hk : k2 = k
              · subst hk
                rw [tableGet_tableSet_self] at hgone
                cases hgone
              · rw [tableGet_tableSet_ne s k2 k _ (Ne.symm hk), hget] at hgone
                cases hgone
  | release k2 oid =>
    simp only [applyOp] at happ
    unfold applyRelease at happ
    split at happ
    · cases happ
    · rename_i r hget2
      have hpos := (hwf.2 k2 r hget2).2.1
      split at happ
      · cases happ
      · split at happ
        · cases happ
        · split at happ
          · rename_i hzero
            cases happ
            by_cases hk : k2 = k
            · subst hk
              rw [hget2] at hget
              cases hget
              exact ⟨by omega, oid, rfl⟩
            · exfalso
              rw [tableGet_tableRemove_ne s k2 k (Ne.symm hk), hget] at hgone
              cases hgone
          · exfalso
            cases happ
            by_cases hk : k2 = k
            · subst hk
              rw [tableGet_tableSet_self] at hgone
              cases hgone
            · rw [tableGet_tableSet_ne s k2 k _ (Ne.symm hk), hget] at hgone
              cases hgone

end MinioNS

namespace MinioNS

/-- If no entry of a key carries an operation id, no snapshot row of that
key carries it either (keys must be unique for the table fold to agree
with lookup). -/
theorem listLocksInfo_no_opId (t : Table) (k : ResourceKey) (oid : Nat)
    (hnd : (keysOf t).Nodup)
    (hent : ∀ e ∈ entriesOf t k, e.opId ≠ oid) :
    ∀ bucket pre : String, ∀ d now : Nat, ∀ info : LockInfo,
      info ∈ listLocksInfo t bucket pre d now →
      ¬(info.volume = k.volume ∧ info.path = k.path ∧ info.opId = oid) := by
  intro bucket pre d now info hmem hcon
  simp only [listLocksInfo, List.mem_flatMap] at hmem
  obtain ⟨kr, hkr, hinfo⟩ := hmem
  split at hinfo
  · simp only [List.mem_map, List.mem_filter] at hinfo
    obtain ⟨e2, ⟨he2, htime⟩, heq⟩ := hinfo
    have hv : kr.1.volume = k.volume := by
      rw [← hcon.1, ← heq]
      rfl
    have hp : kr.1.path = k.path := by
      rw [← hcon.2.1, ← heq]
      rfl
    have hkey : kr.1 = k := by
      have h1 : kr.1 = ⟨kr.1.volume, kr.1.path⟩ := rfl
      have h2 : k = ⟨k.volume, k.path⟩ := rfl
      rw [h1, h2, hv, hp]
    have hget2 := tableGet_of_mem t kr hnd hkr
    rw [hkey] at hget2
    have hin : e2 ∈ entriesOf t k := by
      unfold entriesOf
      rw [hget2]
      exact he2
    apply hent e2 hin
    rw [← hcon.2.2, ← heq]
    rfl
  · cases hinfo

/-- C1: the concrete `TestListLocksInfo` scenario.  After ten shared
locks on `(bucket1, prefix1/obj1)` and ten exclusive locks on
`(bucket1, prefix1/obj10..19)`, `listLocksInfo "bucket1" "prefix1" 0`
returns exactly 20 entries, `listLocksInfo "bucket" "prefix1" 0` returns
0 (the volume must equal the bucket exactly), and
`listLocksInfo "bucket1" "prefix11" 0` returns 0 (the path must have the
argument as a literal string prefix). -/
theorem listLocksInfo_filter_scenario :
    (runTrace scenarioTrace []).isSome = true ∧
    (listLocksInfo scenarioTable "bucket1" "prefix1" 0 5).length = 20 ∧
    (listLocksInfo scenarioTable "bucket" "prefix1" 0 5).length = 0 ∧
    (listLocksInfo scenarioTable "bucket1" "prefix11" 0 5).length = 0 :=
  ⟨by decide, by decide, by decide, by decide⟩

/-- C2: mutual exclusion.  In every reachable Lock State Table, no record
has `readers > 0` and `writerHeld = true` simultaneously. -/
theorem mutual_exclusion_invariant (t : Table) (h : Reach t) (k : ResourceKey)
    (r : LockRecord) (hget : tableGet t k = some r) :
    ¬(0 < r.readers ∧ r.writerHeld = true) :=
  ((Reach_WF t h).2 k r hget).2.2.2

/-- Concrete key for the C2 witness. -/
def c2Key : ResourceKey := ⟨"bucket1", "obj"⟩

/-- Concrete record for the C2 witness: one acquired shared lock. -/
def c2Rec : LockRecord :=
  ⟨1, false, 1, [⟨0, LockType.Read, LockStatus.Acquired, 0, "test"⟩]⟩

theorem mutual_exclusion_invariant_witness :
    ¬(0 < c2Rec.readers ∧ c2Rec.writerHeld = true) :=
  mutual_exclusion_invariant [(c2Key, c2Rec)]
    ⟨[NSOp.request c2Key 0 LockType.Read 0 "test", NSOp.grant c2Key 0], by decide⟩
    c2Key c2Rec (by decide)

/-- C3: time filtering.  With `relDur > 0` every returned row is at least
`relDur` old (`since + relDur ≤ now`); with `relDur = 0` every
bucket/prefix-matching entry is returned regardless of age. -/
theorem listLocksInfo_time_filter (t : Table) (bucket pre : String) (now : Nat) :
    (∀ d : Nat, 0 < d → ∀ info : LockInfo, info ∈ listLocksInfo t bucket pre d now →
      info.since + d ≤ now) ∧
    (∀ kr : ResourceKey × LockRecord, ∀ e : LockEntry, kr ∈ t → e ∈ kr.2.entries →
      kr.1.volume = bucket → strHasPre pre kr.1.path = true →
      mkLockInfo kr.1 e ∈ listLocksInfo t bucket pre 0 now) := by
  constructor
  · intro d hd info hmem
    simp only [listLocksInfo, List.mem_flatMap] at hmem
    obtain ⟨kr, hkr, hinfo⟩ := hmem
    split at hinfo
    · simp only [List.mem_map, List.mem_filter] at hinfo
      obtain ⟨e, ⟨he, htime⟩, heq⟩ := hinfo
      simp only [decide_eq_true_eq] at htime
      have hsince : info.since = e.since := by
        rw [← heq]
        rfl
      rw [hsince]
      omega
    · cases hinfo
  · intro kr e hkr he hvol hpre
    simp only [listLocksInfo, List.mem_flatMap]
    refine ⟨kr, hkr, ?_⟩
    rw [if_pos (by simp [hvol, hpre])]
    simp only [List.mem_map]
    exact ⟨e, by simp [List.mem_filter, he], rfl⟩

/-- Concrete key for the C3 witness. -/
def c3Key : ResourceKey := ⟨"b", "p/x"⟩

/-- Concrete entry (acquired at time 2) for the C3 witness. -/
def c3Entry : LockEntry := ⟨0, LockType.Read, LockStatus.Acquired, 2, "t"⟩

/-- Concrete table for the C3 witness. -/
def c3Table : Table := [(c3Key, ⟨1, false, 1, [c3Entry]⟩)]

theorem listLocksInfo_time_filter_witness :
    (mkLockInfo c3Key c3Entry).since + 3 ≤ 10 ∧
    mkLockInfo c3Key c3Entry ∈ listLocksInfo c3Table "b" "p" 0 10 :=
  ⟨(listLocksInfo_time_filter c3Table "b" "p" 10).1 3 (by decide)
      (mkLockInfo c3Key c3Entry) (by decide),
   (listLocksInfo_time_filter c3Table "b" "p" 10).2 (c3Key, ⟨1, false, 1, [c3Entry]⟩)
      c3Entry (by decide) (by decide) (by decide) (by decide)⟩

/-- C4: reference counting.  Starting from the empty table, any event
sequence with as many requests as releases on a key leaves that key's
record absent; and a step can only remove a record when it is the release
taking its `refCount` from one to zero — never while the count stays
positive. -/
theorem refcount_balance (tr : List NSOp) (t2 : Table) (k : ResourceKey)
    (h : runTrace tr [] = some t2) (hbal : countReq k tr = countRel k tr) :
    tableGet t2 k = none ∧
    (∀ s s2 : Table, ∀ op : NSOp, ∀ rec : LockRecord, Reach s →
      applyOp op s = some s2 → tableGet s k = some rec → tableGet s2 k = none →
      rec.refCount = 1 ∧ ∃ oid : Nat, op = NSOp.release k oid) := by
  constructor
  · have hcnt := refCount_runTrace tr [] t2 k WF_empty h
    have hzero : refCountOf ([] : Table) k = 0 := rfl
    have hwf2 := WF_runTrace tr [] t2 h WF_empty
    apply tableGet_none_of_refCountOf_zero t2 k hwf2
    omega
  · intro s s2 op rec hreach happ hget hgone
    exact removal_characterization s s2 op k rec (Reach_WF s hreach) happ hget hgone

/-- Concrete key for the C4 witness. -/
def c4Key : ResourceKey := ⟨"bucket1", "obj4"⟩

/-- Concrete balanced trace for the C4 witness: one acquire, its grant,
one release. -/
def c4Trace : List NSOp :=
  [NSOp.request c4Key 7 LockType.Read 0 "test", NSOp.grant c4Key 7,
   NSOp.release c4Key 7]

/-- Concrete pre-release table for the C4 witness. -/
def c4Table : Table :=
  [(c4Key, ⟨1, false, 1, [⟨7, LockType.Read, LockStatus.Acquired, 0, "test"⟩]⟩)]

theorem refcount_balance_witness :
    tableGet ([] : Table) c4Key = none ∧
    ((⟨1, false, 1, [⟨7, LockType.Read, LockStatus.Acquired, 0, "test"⟩]⟩ :
        LockRecord).refCount = 1 ∧
      ∃ oid : Nat, NSOp.release c4Key 7 = NSOp.release c4Key oid) :=
  ⟨(refcount_balance c4Trace [] c4Key (by decide) (by decide)).1,
   (refcount_balance c4Trace [] c4Key (by decide) (by decide)).2 c4Table []
      (NSOp.release c4Key 7) _
      ⟨[NSOp.request c4Key 7 LockType.Read 0 "test", NSOp.grant c4Key 7], by decide⟩
      (by decide) (by decide) (by decide)⟩

end MinioNS

namespace MinioNS

theorem entriesOf_tableSet_self (t : Table) (k : ResourceKey) (r : LockRecord) :
    entriesOf (tableSet t k r) k = r.entries := by
  unfold entriesOf
  rw [tableGet_tableSet_self]

theorem entriesOf_tableSet_ne (t : Table) (k k2 : ResourceKey) (r : LockRecord)
    (h : k2 ≠ k) : entriesOf (tableSet t k r) k2 = entriesOf t k2 := by
  unfold entriesOf
  rw [tableGet_tableSet_ne t k k2 r h]

theorem entriesOf_tableRemove_ne (t : Table) (k k2 : ResourceKey) (h : k2 ≠ k) :
    entriesOf (tableRemove t k) k2 = entriesOf t k2 := by
  unfold entriesOf
  rw [tableGet_tableRemove_ne t k k2 h]

/-- C5: release removes the caller's entry.  After a release of operation
`oid` on key `k` completes, no `listLocksInfo` snapshot contains a row for
that key and operation; the release removes exactly the releasing
caller's LockEntry on `k` and leaves every other key's entries
untouched. -/
theorem release_removes_entry (t t2 : Table) (k : ResourceKey) (oid : Nat)
    (hreach : Reach t) (h : applyOp (NSOp.release k oid) t = some t2) :
    (∀ bucket pre : String, ∀ d now : Nat, ∀ info : LockInfo,
      info ∈ listLocksInfo t2 bucket pre d now →
      ¬(info.volume = k.volume ∧ info.path = k.path ∧ info.opId = oid)) ∧
    entriesOf t2 k = (entriesOf t k).filter (fun e2 => e2.opId ≠ oid) ∧
    (∀ k2 : ResourceKey, k2 ≠ k → entriesOf t2 k2 = entriesOf t k2) := by
  have hwf := Reach_WF t hreach
  have hwf2 := WF_applyOp _ t t2 h hwf
  simp only [applyOp] at h
  unfold applyRelease at h
  split at h
  · cases h
  · rename_i r hget
    have hr := hwf.2 k r hget
    split at h
    · cases h
    · rename_i e hfind
      have hmem := List.mem_of_find?_eq_some hfind
      have hoid : e.opId = oid := by
        have := List.find?_some hfind
        simpa using this
      split at h
      · cases h
      · split at h
        · rename_i hzero
          cases h
          have hone : r.entries.length = 1 := by
            have h1 := hr.1
            have h2 := hr.2.1
            omega
          obtain ⟨a, ha⟩ := List.length_eq_one.mp hone
          have hea : e = a := by
            rw [ha] at hmem
            simpa using hmem
          have hent2 : entriesOf (tableRemove t k) k = [] := by
            unfold entriesOf
            rw [tableGet_tableRemove_self t k hwf.1]
          have hfil : (entriesOf t k).filter (fun e2 => e2.opId ≠ oid) = [] := by
            have hek : entriesOf t k = [a] := by
              unfold entriesOf
              rw [hget]
              exact ha
            rw [hek]
            simp [List.filter_cons, ← hea, hoid]
          refine ⟨?_, ?_, ?_⟩
          · apply listLocksInfo_no_opId (tableRemove t k) k oid hwf2.1
            rw [hent2]
            intro e2 he2
            cases he2
          · rw [hent2, hfil]
          · intro k2 hk2
            exact entriesOf_tableRemove_ne t k k2 hk2
        · rename_i hnz
          cases h
          refine ⟨?_, ?_, ?_⟩
          · apply listLocksInfo_no_opId _ k oid hwf2.1
            rw [entriesOf_tableSet_self]
            intro e2 he2
            have he3 : e2 ∈ r.entries.filter (fun e2 => e2.opId ≠ oid) := he2
            simp only [List.mem_filter, decide_not, Bool.not_eq_eq_eq_not, Bool.not_true,
              decide_eq_false_iff_not] at he3
            exact he3.2
          · rw [entriesOf_tableSet_self]
            show r.entries.filter (fun e2 => e2.opId ≠ oid) =
              (entriesOf t k).filter (fun e2 => e2.opId ≠ oid)
            unfold entriesOf
            rw [hget]
          · intro k2 hk2
            exact entriesOf_tableSet_ne t k k2 _ hk2

/-- Concrete key for the C5 witness. -/
def c5Key : ResourceKey := ⟨"bucket1", "obj5"⟩

/-- Concrete table for the C5 witness: one acquired shared lock held by
operation 7. -/
def c5Table : Table :=
  [(c5Key, ⟨1, false, 1, [⟨7, LockType.Read, LockStatus.Acquired, 0, "test"⟩]⟩)]

theorem release_removes_entry_witness :
    entriesOf ([] : Table) c5Key =
      (entriesOf c5Table c5Key).filter (fun e2 => e2.opId ≠ 7) :=
  (release_removes_entry c5Table [] c5Key 7
    ⟨[NSOp.request c5Key 7 LockType.Read 0 "test", NSOp.grant c5Key 7], by decide⟩
    (by decide)).2.1

end MinioNS

namespace MinioNS

/-- The key an event addresses. -/
def opKey : NSOp → ResourceKey
  | NSOp.request k _ _ _ _ => k
  | NSOp.grant k _ => k
  | NSOp.release k _ => k

theorem entriesOf_eq_of_get (t : Table) (k : ResourceKey) (r : LockRecord)
    (h : tableGet t k = some r) : entriesOf t k = r.entries := by
  unfold entriesOf
  rw [h]

theorem entriesOf_eq_none (t : Table) (k : ResourceKey)
    (h : tableGet t k = none) : entriesOf t k = [] := by
  unfold entriesOf
  rw [h]

/-- Two entries of a key with the same operation id are the same entry
(operation ids are unique under well-formedness). -/
theorem entry_unique (es : List LockEntry) (hnd : (es.map LockEntry.opId).Nodup)
    (a b : LockEntry) (ha : a ∈ es) (hb : b ∈ es) (hab : a.opId = b.opId) : a = b :=
  List.inj_on_of_nodup_map hnd ha hb hab

/-- Any event addressed to a different key leaves a key's binding
untouched. -/
theorem applyOp_other (op : NSOp) (t t2 : Table) (k : ResourceKey)
    (h : applyOp op t = some t2) (hk : k ≠ opKey op) :
    tableGet t2 k = tableGet t k := by
  cases op with
  | request k2 oid lt since src =>
    simp only [opKey] at hk
    simp only [applyOp] at h
    unfold applyRequest at h
    split at h
    · cases h
      exact tableGet_tableSet_ne t k2 k _ hk
    · split at h
      · cases h
      · cases h
        exact tableGet_tableSet_ne t k2 k _ hk
  | grant k2 oid =>
    simp only [opKey] at hk
    simp only [applyOp] at h
    unfold applyGrant at h
    split at h
    · cases h
    · split at h
      · cases h
      · split at h
        · cases h
        · split at h
          · split at h
            · cases h
            · cases h
              exact tableGet_tableSet_ne t k2 k _ hk
          · split at h
            · cases h
            · cases h
              exact tableGet_tableSet_ne t k2 k _ hk
  | release k2 oid =>
    simp only [opKey] at hk
    simp only [applyOp] at h
    unfold applyRelease at h
    split at h
    · cases h
    · split at h
      · cases h
      · split at h
        · cases h
        · split at h
          · cases h
            exact tableGet_tableRemove_ne t k2 k hk
          · cases h
            exact tableGet_tableSet_ne t k2 k _ hk

theorem entriesOf_applyOp_other (op : NSOp) (t t2 : Table) (k : ResourceKey)
    (h : applyOp op t = some t2) (hk : k ≠ opKey op) :
    entriesOf t2 k = entriesOf t k := by
  unfold entriesOf
  rw [applyOp_other op t t2 k h hk]

/-- A successful request guarantees the operation id was free on the key
and appends the new `Blocked` entry at the end of the queue. -/
theorem request_guard (t t2 : Table) (k : ResourceKey) (oid : Nat) (lt : LockType)
    (since : Nat) (src : String) (h : applyRequest t k oid lt since src = some t2) :
    (∀ e ∈ entriesOf t k, e.opId ≠ oid) ∧
    entriesOf t2 k = entriesOf t k ++ [⟨oid, lt, LockStatus.Blocked, since, src⟩] := by
  unfold applyRequest at h
  split at h
  · rename_i hget
    cases h
    constructor
    · intro e he
      rw [entriesOf_eq_none t k hget] at he
      cases he
    · rw [entriesOf_tableSet_self, entriesOf_eq_none t k hget]
      rfl
  · rename_i r hget
    split at h
    · cases h
    · rename_i hany
      cases h
      simp only [List.any_eq_true, decide_eq_true_eq, not_exists, not_and] at hany
      constructor
      · intro e he
        rw [entriesOf_eq_of_get t k r hget] at he
        exact hany e he
      · rw [entriesOf_tableSet_self, entriesOf_eq_of_get t k r hget]

/-- A successful grant rewrites the key's queue with `setAcquired`. -/
theorem applyGrant_entries (t t2 : Table) (k : ResourceKey) (oid : Nat)
    (h : applyGrant t k oid = some t2) :
    entriesOf t2 k = setAcquired (entriesOf t k) oid := by
  unfold applyGrant at h
  split at h
  · cases h
  · rename_i rec hget
    split at h
    · cases h
    · rename_i e hfind
      split at h
      · cases h
      · split at h
        · split at h
          · cases h
          · cases h
            rw [entriesOf_tableSet_self, entriesOf_eq_of_get t k rec hget]
        · split at h
          · cases h
          · cases h
            rw [entriesOf_tableSet_self, entriesOf_eq_of_get t k rec hget]

/-- A successful request leaves its fresh `Blocked` entry in the queue. -/
theorem request_creates_blocked (t t2 : Table) (k : ResourceKey) (oid : Nat)
    (lt : LockType) (since : Nat) (src : String)
    (h : applyRequest t k oid lt since src = some t2) :
    (⟨oid, lt, LockStatus.Blocked, since, src⟩ : LockEntry) ∈ entriesOf t2 k := by
  rw [(request_guard t t2 k oid lt since src h).2]
  exact List.mem_append_right _ (List.mem_singleton.mpr rfl)

/-- A `Blocked` `Write` entry queued ahead of the first occurrence of an
operation id makes `blockedWriterBefore` answer `true`. -/
theorem blockedWriterBefore_true (es1 es2 : List LockEntry) (ew : LockEntry) (r : Nat)
    (h1 : ∀ e ∈ es1, e.opId ≠ r) (hw : ew.opId ≠ r)
    (hlt : ew.lockType = LockType.Write) (hst : ew.status = LockStatus.Blocked) :
    blockedWriterBefore (es1 ++ ew :: es2) r = true := by
  induction es1 with
  | nil => simp [blockedWriterBefore, hw, hlt, hst]
  | cons hd tl ih =>
    simp only [List.cons_append, blockedWriterBefore]
    rw [if_neg (h1 hd (List.mem_cons_self hd tl))]
    split
    · rfl
    · exact ih (fun e he => h1 e (List.mem_cons_of_mem hd he))

end MinioNS

namespace MinioNS

/-- A writer request with the given operation id is queued (present and
still `Blocked`) on the key. -/
def hasBlockedWriter (t : Table) (k : ResourceKey) (w : Nat) : Prop :=
  ∃ e ∈ entriesOf t k, e.opId = w ∧ e.lockType = LockType.Write ∧
    e.status = LockStatus.Blocked

/-- A queued writer `w` stands ahead of a later blocked reader `r` on the
key: the queue splits as `es1 ++ ew :: es2` with the blocked writer `ew`
before every occurrence of `r`, and the blocked `Read` request `r` sits
somewhere behind it. -/
def writerBarsReader (t : Table) (k : ResourceKey) (w r : Nat) : Prop :=
  ∃ es1 ew es2, entriesOf t k = es1 ++ ew :: es2 ∧ ew.opId = w ∧
    ew.lockType = LockType.Write ∧ ew.status = LockStatus.Blocked ∧
    (∀ e ∈ es1, e.opId ≠ r) ∧
    ∃ er ∈ es2, er.opId = r ∧ er.lockType = LockType.Read ∧
      er.status = LockStatus.Blocked

/-- Under write-preferring fairness, a reader queued behind a blocked
writer cannot be granted: the grant of `r` is not enabled. -/
theorem grant_blocked_by_writer (t : Table) (k : ResourceKey) (w r : Nat)
    (hwf : WF t) (hbar : writerBarsReader t k w r) (hwr : w ≠ r) :
    applyGrant t k r = none := by
  obtain ⟨es1, ew, es2, hsplit, hewid, hewlt, hewst, hes1, er, her, herid, herlt, herst⟩ := hbar
  cases hget : tableGet t k with
  | none =>
    unfold applyGrant
    rw [hget]
  | some rec =>
    have hrec := hwf.2 k rec hget
    have hentries : rec.entries = es1 ++ ew :: es2 := by
      rw [← entriesOf_eq_of_get t k rec hget]
      exact hsplit
    have hbwb : blockedWriterBefore rec.entries r = true := by
      rw [hentries]
      exact blockedWriterBefore_true es1 es2 ew r hes1 (by rw [hewid]; exact hwr)
        hewlt hewst
    simp only [applyGrant, hget]
    cases hfind : rec.entries.find? (fun e => e.opId = r) with
    | none => simp [hfind]
    | some e3 =>
      have he3mem := List.mem_of_find?_eq_some hfind
      have he3id : e3.opId = r := by
        simpa using List.find?_some hfind
      have hermem : er ∈ rec.entries := by
        rw [hentries]
        exact List.mem_append_right _ (List.mem_cons_of_mem ew her)
      have he3er : e3 = er := entry_unique rec.entries hrec.2.2.1 e3 er he3mem hermem
        (by rw [he3id, herid])
      simp [hfind, he3er, herst, herlt, hbwb]

/-- The queued-writer predicate is preserved by every enabled event except
the grant of that writer. -/
theorem hasBlockedWriter_step (t t2 : Table) (k : ResourceKey) (w : Nat) (op : NSOp)
    (hwf : WF t) (hq : hasBlockedWriter t k w) (happ : applyOp op t = some t2)
    (hne : op ≠ NSOp.grant k w) : hasBlockedWriter t2 k w := by
  obtain ⟨e, he, hew, helt, hest⟩ := hq
  cases hget : tableGet t k with
  | none =>
    rw [entriesOf_eq_none t k hget] at he
    cases he
  | some rec =>
    rw [entriesOf_eq_of_get t k rec hget] at he
    have hrec := hwf.2 k rec hget
    cases op with
    | request k2 oid lt since src =>
      by_cases hk : k2 = k
      · subst hk
        simp only [applyOp] at happ
        have hg := request_guard t t2 k2 oid lt since src happ
        refine ⟨e, ?_, hew, helt, hest⟩
        rw [hg.2, entriesOf_eq_of_get t k2 rec hget]
        exact List.mem_append_left _ he
      · refine ⟨e, ?_, hew, helt, hest⟩
        rw [entriesOf_applyOp_other _ t t2 k happ (by simpa [opKey] using Ne.symm hk),
          entriesOf_eq_of_get t k rec hget]
        exact he
    | grant k2 oid =>
      by_cases hk : k2 = k
      · subst hk
        simp only [applyOp] at happ
        have hoidw : oid ≠ w := by
          intro hh
          exact hne (by rw [hh])
        refine ⟨e, ?_, hew, helt, hest⟩
        rw [applyGrant_entries t t2 k2 oid happ, entriesOf_eq_of_get t k2 rec hget]
        unfold setAcquired
        have himg : (fun e2 => if e2.opId = oid then
            { e2 with status := LockStatus.Acquired } else e2) e = e := by
          simp only []
          rw [if_neg (by rw [hew]; exact Ne.symm hoidw)]
        exact himg ▸ List.mem_map_of_mem _ he
      · refine ⟨e, ?_, hew, helt, hest⟩
        rw [entriesOf_applyOp_other _ t t2 k happ (by simpa [opKey] using Ne.symm hk),
          entriesOf_eq_of_get t k rec hget]
        exact he
    | release k2 oid =>
      by_cases hk : k2 = k
      · subst hk
        simp only [applyOp] at happ
        unfold applyRelease at happ
        split at happ
        · cases happ
        · rename_i rec2 hget2
          rw [hget] at hget2
          injection hget2 with hrec2
          subst hrec2
          split at happ
          · cases happ
          · rename_i e3 hfind
            have he3mem := List.mem_of_find?_eq_some hfind
            have he3id : e3.opId = oid := by
              simpa using List.find?_some hfind
            split at happ
            · cases happ
            · rename_i hst3
              have hoidw : oid ≠ w := by
                intro hh
                have he3e : e3 = e := entry_unique rec.entries hrec.2.2.1 e3 e
                  he3mem he (by rw [he3id, hew, hh])
                rw [he3e, hest] at hst3
                cases hst3
              split at happ
              · rename_i hzero
                exfalso
                have hone : rec.entries.length = 1 := by
                  have h1 := hrec.1
                  have h2 := hrec.2.1
                  omega
                obtain ⟨a, ha⟩ := List.length_eq_one.mp hone
                have hea : e = a := by
                  rw [ha] at he
                  simpa using he
                have he3a : e3 = a := by
                  rw [ha] at he3mem
                  simpa using he3mem
                rw [he3a, ← hea, hest] at hst3
                cases hst3
              · cases happ
                refine ⟨e, ?_, hew, helt, hest⟩
                rw [entriesOf_tableSet_self]
                refine List.mem_filter.mpr ⟨he, ?_⟩
                simp only [decide_not, Bool.not_eq_eq_eq_not, Bool.not_true,
                  decide_eq_false_iff_not]
                rw [hew]
                exact Ne.symm hoidw
      · refine ⟨e, ?_, hew, helt, hest⟩
        rw [entriesOf_applyOp_other _ t t2 k happ (by simpa [opKey] using Ne.symm hk),
          entriesOf_eq_of_get t k rec hget]
        exact he

end MinioNS

namespace MinioNS

/-- The barred-reader configuration is preserved by every enabled event
except the grant of the queued writer itself. -/
theorem writerBarsReader_step (t t2 : Table) (k : ResourceKey) (w r : Nat) (op : NSOp)
    (hwf : WF t) (hbar : writerBarsReader t k w r) (happ : applyOp op t = some t2)
    (hnew : op ≠ NSOp.grant k w) (hwr : w ≠ r) : writerBarsReader t2 k w r := by
  obtain ⟨es1, ew, es2, hsplit, hewid, hewlt, hewst, hes1, er, her, herid, herlt, herst⟩ := hbar
  cases hget : tableGet t k with
  | none =>
    rw [entriesOf_eq_none t k hget] at hsplit
    exact absurd hsplit.symm (by simp)
  | some rec =>
    have hrec := hwf.2 k rec hget
    have hentries : rec.entries = es1 ++ ew :: es2 := by
      rw [← entriesOf_eq_of_get t k rec hget]
      exact hsplit
    cases op with
    | request k2 oid lt since src =>
      by_cases hk : k2 = k
      · subst hk
        simp only [applyOp] at happ
        have hg := request_guard t t2 k2 oid lt since src happ
        refine ⟨es1, ew, es2 ++ [⟨oid, lt, LockStatus.Blocked, since, src⟩], ?_,
          hewid, hewlt, hewst, hes1, er, List.mem_append_left _ her, herid, herlt, herst⟩
        rw [hg.2, hsplit]
        simp
      · refine ⟨es1, ew, es2, ?_, hewid, hewlt, hewst, hes1, er, her, herid, herlt, herst⟩
        rw [entriesOf_applyOp_other _ t t2 k happ (by simpa [opKey] using Ne.symm hk)]
        exact hsplit
    | grant k2 oid =>
      by_cases hk : k2 = k
      · subst hk
        simp only [applyOp] at happ
        have hoidw : oid ≠ w := by
          intro hh
          exact hnew (by rw [hh])
        by_cases hoidr : oid = r
        · exfalso
          subst hoidr
          rw [grant_blocked_by_writer t k2 w oid hwf
            ⟨es1, ew, es2, hsplit, hewid, hewlt, hewst, hes1, er, her, herid, herlt, herst⟩
            hwr] at happ
          cases happ
        · have hent2 := applyGrant_entries t t2 k2 oid happ
          have himgw : (if ew.opId = oid then
              { ew with status := LockStatus.Acquired } else ew) = ew := by
            rw [if_neg (by rw [hewid]; exact Ne.symm hoidw)]
          have himgr : (fun e2 => if e2.opId = oid then
              { e2 with status := LockStatus.Acquired } else e2) er = er := by
            simp only []
            rw [if_neg (by rw [herid]; exact fun hh => hoidr hh.symm)]
          refine ⟨setAcquired es1 oid, ew, setAcquired es2 oid, ?_, hewid, hewlt, hewst,
            ?_, er, ?_, herid, herlt, herst⟩
          · rw [hent2, hsplit]
            unfold setAcquired
            rw [List.map_append, List.map_cons, himgw]
          · intro e2 he2
            unfold setAcquired at he2
            obtain ⟨x, hx, hxe⟩ := List.mem_map.mp he2
            rw [← hxe, setAcquired_opId_eq]
            exact hes1 x hx
          · exact himgr ▸ List.mem_map_of_mem _ her
      · refine ⟨es1, ew, es2, ?_, hewid, hewlt, hewst, hes1, er, her, herid, herlt, herst⟩
        rw [entriesOf_applyOp_other _ t t2 k happ (by simpa [opKey] using Ne.symm hk)]
        exact hsplit
    | release k2 oid =>
      by_cases hk : k2 = k
      · subst hk
        simp only [applyOp] at happ
        unfold applyRelease at happ
        split at happ
        · cases happ
        · rename_i rec2 hget2
          rw [hget] at hget2
          injection hget2 with hrec2
          subst hrec2
          split at happ
          · cases happ
          · rename_i e3 hfind
            have he3mem := List.mem_of_find?_eq_some hfind
            have he3id : e3.opId = oid := by
              simpa using List.find?_some hfind
            split at happ
            · cases happ
            · rename_i hst3
              have hewmem : ew ∈ rec.entries := by
                rw [hentries]
                exact List.mem_append_right _ (List.mem_cons_self _ _)
              have hermem : er ∈ rec.entries := by
                rw [hentries]
                exact List.mem_append_right _ (List.mem_cons_of_mem _ her)
              have hoidw : oid ≠ w := by
                intro hh
                have he3ew : e3 = ew := entry_unique rec.entries hrec.2.2.1 e3 ew
                  he3mem hewmem (by rw [he3id, hewid, hh])
                rw [he3ew, hewst] at hst3
                cases hst3
              have hoidr : oid ≠ r := by
                intro hh
                have he3er : e3 = er := entry_unique rec.entries hrec.2.2.1 e3 er
                  he3mem hermem (by rw [he3id, herid, hh])
                rw [he3er, herst] at hst3
                cases hst3
              split at happ
              · rename_i hzero
                exfalso
                have hne3ew : e3 ≠ ew := by
                  intro hh
                  rw [hh, hewst] at hst3
                  cases hst3
                have hone : rec.entries.length = 1 := by
                  have h1 := hrec.1
                  have h2 := hrec.2.1
                  omega
                obtain ⟨a, ha⟩ := List.length_eq_one.mp hone
                have h3 : e3 = a := by
                  rw [ha] at he3mem
                  simpa using he3mem
                have h4 : ew = a := by
                  rw [ha] at hewmem
                  simpa using hewmem
                exact hne3ew (h3.trans h4.symm)
              · cases happ
                refine ⟨es1.filter (fun e2 => e2.opId ≠ oid), ew,
                  es2.filter (fun e2 => e2.opId ≠ oid), ?_, hewid, hewlt, hewst, ?_, er,
                  ?_, herid, herlt, herst⟩
                · rw [entriesOf_tableSet_self]
                  show rec.entries.filter (fun e2 => e2.opId ≠ oid) = _
                  rw [hentries, List.filter_append, List.filter_cons,
                    if_pos (by simp only [decide_eq_true_eq]; rw [hewid]; exact Ne.symm hoidw)]
                · intro e2 he2
                  exact hes1 e2 (List.mem_of_mem_filter he2)
                · refine List.mem_filter.mpr ⟨her, ?_⟩
                  simp only [decide_eq_true_eq]
                  rw [herid]
                  exact Ne.symm hoidr
      · refine ⟨es1, ew, es2, ?_, hewid, hewlt, hewst, hes1, er, her, herid, herlt, herst⟩
        rw [entriesOf_applyOp_other _ t t2 k happ (by simpa [opKey] using Ne.symm hk)]
        exact hsplit

end MinioNS

namespace MinioNS

theorem runTrace_append (a b : List NSOp) (t : Table) :
    runTrace (a ++ b) t = (runTrace a t).bind (runTrace b) := by
  induction a generalizing t with
  | nil => simp [runTrace]
  | cons op rest ih =>
    simp only [List.cons_append, runTrace]
    cases happ : applyOp op t with
    | none => simp
    | some t3 => simp [ih t3]

theorem runTrace_append_some (a b : List NSOp) (t t2 : Table)
    (h : runTrace (a ++ b) t = some t2) :
    ∃ t3, runTrace a t = some t3 ∧ runTrace b t3 = some t2 := by
  rw [runTrace_append] at h
  cases ha : runTrace a t with
  | none =>
    rw [ha] at h
    cases h
  | some t3 =>
    rw [ha] at h
    exact ⟨t3, rfl, by simpa using h⟩

theorem runTrace_single (op : NSOp) (t t2 : Table) (h : runTrace [op] t = some t2) :
    applyOp op t = some t2 := by
  simp only [runTrace] at h
  split at h
  · cases h
  · rename_i t3 happ
    cases h
    exact happ

theorem hasBlockedWriter_trace (tr : List NSOp) (t t2 : Table) (k : ResourceKey)
    (w : Nat) (hwf : WF t) (hq : hasBlockedWriter t k w)
    (h : runTrace tr t = some t2) (hnot : NSOp.grant k w ∉ tr) :
    hasBlockedWriter t2 k w := by
  induction tr generalizing t with
  | nil =>
    simp only [runTrace] at h
    cases h
    exact hq
  | cons op rest ih =>
    simp only [runTrace] at h
    split at h
    · cases h
    · rename_i t3 happ
      have hop : op ≠ NSOp.grant k w := fun hh => hnot (hh ▸ List.mem_cons_self op rest)
      exact ih t3 (WF_applyOp op t t3 happ hwf)
        (hasBlockedWriter_step t t3 k w op hwf hq happ hop) h
        (fun hh => hnot (List.mem_cons_of_mem op hh))

theorem writerBarsReader_trace (tr : List NSOp) (t t2 : Table) (k : ResourceKey)
    (w r : Nat) (hwf : WF t) (hbar : writerBarsReader t k w r)
    (h : runTrace tr t = some t2) (hnot : NSOp.grant k w ∉ tr) (hwr : w ≠ r) :
    writerBarsReader t2 k w r := by
  induction tr generalizing t with
  | nil =>
    simp only [runTrace] at h
    cases h
    exact hbar
  | cons op rest ih =>
    simp only [runTrace] at h
    split at h
    · cases h
    · rename_i t3 happ
      have hop : op ≠ NSOp.grant k w := fun hh => hnot (hh ▸ List.mem_cons_self op rest)
      exact ih t3 (WF_applyOp op t t3 happ hwf)
        (writerBarsReader_step t t3 k w r op hwf hbar happ hop hwr) h
        (fun hh => hnot (List.mem_cons_of_mem op hh))

/-- C6: write-preferring fairness.  In any enabled event sequence on the
local backend in which a writer `w` requests key `k`, a reader `r`
requests the same key strictly later, and `r` is eventually granted, the
writer's grant occurs strictly before the reader's grant: no reader that
arrives after a queued writer overtakes it. -/
theorem write_preferring_fairness (pre mid post rest : List NSOp) (k : ResourceKey)
    (w r s1 s2 : Nat) (src1 src2 : String) (tfin : Table)
    (h : runTrace (pre ++ ([NSOp.request k w LockType.Write s1 src1] ++
      (mid ++ ([NSOp.request k r LockType.Read s2 src2] ++
        (post ++ ([NSOp.grant k r] ++ rest)))))) [] = some tfin) :
    NSOp.grant k w ∈ mid ++ post := by
  by_cases hmem : NSOp.grant k w ∈ mid ++ post
  · exact hmem
  exfalso
  rw [List.mem_append] at hmem
  push_neg at hmem
  obtain ⟨hmid, hpost⟩ := hmem
  obtain ⟨t0, hpre, h⟩ := runTrace_append_some _ _ _ _ h
  obtain ⟨t1, hreqw, h⟩ := runTrace_append_some _ _ _ _ h
  obtain ⟨t2m, hmidrun, h⟩ := runTrace_append_some _ _ _ _ h
  obtain ⟨t3m, hreqr, h⟩ := runTrace_append_some _ _ _ _ h
  obtain ⟨t4m, hpostrun, h⟩ := runTrace_append_some _ _ _ _ h
  obtain ⟨t5m, hgrantr, _⟩ := runTrace_append_some _ _ _ _ h
  have hreqw2 := runTrace_single _ _ _ hreqw
  have hreqr2 := runTrace_single _ _ _ hreqr
  have hgrantr2 := runTrace_single _ _ _ hgrantr
  have hwf0 := WF_runTrace pre [] t0 hpre WF_empty
  have hwf1 := WF_applyOp _ t0 t1 hreqw2 hwf0
  have hwf2 := WF_runTrace mid t1 t2m hmidrun hwf1
  have hwf3 := WF_applyOp _ t2m t3m hreqr2 hwf2
  have hwf4 := WF_runTrace post t3m t4m hpostrun hwf3
  simp only [applyOp] at hreqw2 hreqr2
  have hq1 : hasBlockedWriter t1 k w :=
    ⟨⟨w, LockType.Write, LockStatus.Blocked, s1, src1⟩,
      request_creates_blocked t0 t1 k w LockType.Write s1 src1 hreqw2, rfl, rfl, rfl⟩
  have hq2 : hasBlockedWriter t2m k w :=
    hasBlockedWriter_trace mid t1 t2m k w hwf1 hq1 hmidrun hmid
  have hg := request_guard t2m t3m k r LockType.Read s2 src2 hreqr2
  obtain ⟨ew, hewmem, hewid, hewlt, hewst⟩ := hq2
  have hwr : w ≠ r := by
    intro hh
    exact hg.1 ew hewmem (by rw [hewid, hh])
  obtain ⟨es1, es2x, hsplit2⟩ := List.append_of_mem hewmem
  have hbar3 : writerBarsReader t3m k w r := by
    refine ⟨es1, ew, es2x ++ [⟨r, LockType.Read, LockStatus.Blocked, s2, src2⟩], ?_,
      hewid, hewlt, hewst, ?_, ⟨r, LockType.Read, LockStatus.Blocked, s2, src2⟩,
      List.mem_append_right _ (List.mem_singleton.mpr rfl), rfl, rfl, rfl⟩
    · rw [hg.2, hsplit2]
      simp
    · intro e2 he2
      exact hg.1 e2 (by rw [hsplit2]; exact List.mem_append_left _ he2)
  have hbar4 : writerBarsReader t4m k w r :=
    writerBarsReader_trace post t3m t4m k w r hwf3 hbar3 hpostrun hpost hwr
  have hnone := grant_blocked_by_writer t4m k w r hwf4 hbar4 hwr
  simp only [applyOp] at hgrantr2
  rw [hnone] at hgrantr2
  cases hgrantr2

/-- Concrete key for the C6 witness. -/
def c6Key : ResourceKey := ⟨"bucket1", "obj6"⟩

theorem write_preferring_fairness_witness :
    NSOp.grant c6Key 0 ∈
      ([] : List NSOp) ++ [NSOp.grant c6Key 0, NSOp.release c6Key 0] :=
  write_preferring_fairness [] [] [NSOp.grant c6Key 0, NSOp.release c6Key 0] []
    c6Key 0 1 0 0 "w" "r"
    [(c6Key, ⟨1, false, 1, [⟨1, LockType.Read, LockStatus.Acquired, 0, "r"⟩]⟩)]
    (by decide)

end MinioNS

namespace MinioFS

theorem osRemove_ok_eq (fs fs2 : FS) (p : String)
    (h : osRemove fs p = Except.ok fs2) : fs2 = removeFS fs p := by
  unfold osRemove at h
  split at h
  · cases h
  · split at h
    · cases h
    · cases h
      rfl

theorem mem_removeFS_of_ne (fs : FS) (p : String) (e : FSEntry)
    (he : e ∈ fs) (hne : e.path ≠ p) : e ∈ removeFS fs p := by
  induction fs with
  | nil => cases he
  | cons hd tl ih =>
    unfold removeFS
    by_cases hh : (hd.path == p) = true
    · rw [if_pos hh]
      rcases List.mem_cons.mp he with h | h
      · exfalso
        rw [h] at hne
        exact hne (by simpa using hh)
      · exact h
    · rw [if_neg hh]
      rcases List.mem_cons.mp he with h | h
      · rw [h]
        exact List.mem_cons_self _ _
      · exact List.mem_cons_of_mem _ (ih h)

/-- The fuel-indexed walk agrees with the recursive delete whenever the
fuel exceeds the number of filesystem objects: the upward
delete-then-recurse walk makes at most `|fs| + 1` calls on every input,
because each recursive call follows the removal of an existing object. -/
theorem fsDeleteFileFuel_spec (fuel : Nat) (fs : FS) (basePath deletePath : String)
    (hfuel : fs.length < fuel) :
    fsDeleteFileFuel fuel fs basePath deletePath =
      some (fsDeleteFile fs basePath deletePath) := by
  induction fuel generalizing fs deletePath with
  | zero => omega
  | succ n ih =>
    unfold fsDeleteFileFuel fsDeleteFile
    simp only [checkPathLength]
    by_cases heq : basePath = deletePath
    · rw [if_pos heq, if_pos heq]
    · rw [if_neg heq, if_neg heq]
      cases hst : statFS fs deletePath with
      | none => rfl
      | some st =>
        dsimp only
        by_cases hdir : (st.isDir && !(isDirEmptyFS fs deletePath)) = true
        · rw [if_pos hdir, if_pos hdir]
        · rw [if_neg hdir, if_neg hdir]
          cases hrm : osRemove fs deletePath with
          | error err => cases err <;> rfl
          | ok fs2 =>
            dsimp only
            have hlen := osRemove_length fs fs2 deletePath hrm
            exact ih fs2 (goDir deletePath) (by omega)

/-- Deleting a path string-equal to the base path returns nil at once,
touching nothing. -/
theorem fsDeleteFile_eq_base (fs : FS) (b : String) :
    fsDeleteFile fs b b = (fs, Except.ok ()) := by
  unfold fsDeleteFile
  simp [checkPathLength]

/-- Entries whose path is string-equal to the base path survive the whole
walk: the equality check precedes every stat and removal. -/
theorem fsDeleteFile_preserves_base (n : Nat) : ∀ (fs : FS) (p : String) (b : String)
    (e : FSEntry), fs.length ≤ n → e ∈ fs → e.path = b →
    e ∈ (fsDeleteFile fs b p).1 := by
  induction n with
  | zero =>
    intro fs p b e hlen he hpath
    rw [List.length_eq_zero.mp (Nat.le_zero.mp hlen)] at he
    cases he
  | succ n ih =>
    intro fs p b e hlen he hpath
    unfold fsDeleteFile
    simp only [checkPathLength]
    by_cases heq : b = p
    · rw [if_pos heq]
      exact he
    · rw [if_neg heq]
      cases hst : statFS fs p with
      | none => exact he
      | some st =>
        dsimp only
        by_cases hdir : (st.isDir && !(isDirEmptyFS fs p)) = true
        · rw [if_pos hdir]
          exact he
        · rw [if_neg hdir]
          cases hrm : osRemove fs p with
          | error err => cases err <;> exact he
          | ok fs2 =>
            dsimp only
            have hlen2 := osRemove_length fs fs2 p hrm
            apply ih fs2 (goDir p) b e (by omega) ?_ hpath
            rw [osRemove_ok_eq fs fs2 p hrm]
            exact mem_removeFS_of_ne fs p e he (by rw [hpath]; exact heq)

end MinioFS

namespace MinioFS

/-- C7: termination of the upward walk.  For every filesystem state, base
path and delete path — including pathological paths whose `pathutil.Dir`
chain never string-equals the base path and ends in the fixed points `"/"`
or `"."` — the delete-then-recurse-on-parent walk of `fsDeleteFile` makes
at most `|fs| + 1` nested calls: the fuel-indexed walk with any fuel
exceeding the object count already reaches the total result. -/
theorem fsDeleteFile_depth_bound (fs : FS) (basePath deletePath : String)
    (fuel : Nat) (hfuel : fs.length < fuel) :
    fsDeleteFileFuel fuel fs basePath deletePath =
      some (fsDeleteFile fs basePath deletePath) :=
  fsDeleteFileFuel_spec fuel fs basePath deletePath hfuel

theorem fsDeleteFile_depth_bound_witness :
    fsDeleteFileFuel 1 [] "a" "b" = some (fsDeleteFile [] "a" "b") :=
  fsDeleteFile_depth_bound [] "a" "b" 1 (by decide)

/-- C8: base-path protection.  `fsDeleteFile` returns nil immediately and
untouched state when the delete path is string-equal to the base path;
entries spelled exactly like the base path survive every removal of the
walk; and the protection is exact string equality only — a base path
spelled with a trailing slash does not protect the slashless file, which
gets removed. -/
theorem fsDeleteFile_protects_base :
    (∀ (fs : FS) (b : String), fsDeleteFile fs b b = (fs, Except.ok ())) ∧
    (∀ (fs : FS) (b p : String) (e : FSEntry), e ∈ fs → e.path = b →
      e ∈ (fsDeleteFile fs b p).1) ∧
    (⟨"a/b", false, 0⟩ : FSEntry) ∉ (fsDeleteFile [⟨"a/b", false, 0⟩] "a/b/" "a/b").1 := by
  refine ⟨fsDeleteFile_eq_base, ?_, ?_⟩
  · intro fs b p e he hpath
    exact fsDeleteFile_preserves_base fs.length fs p b e le_rfl he hpath
  · have h2 : fsDeleteFileFuel 2 [⟨"a/b", false, 0⟩] "a/b/" "a/b" =
        some (fsDeleteFile [⟨"a/b", false, 0⟩] "a/b/" "a/b") :=
      fsDeleteFileFuel_spec 2 _ _ _ (by decide)
    have h3 : fsDeleteFileFuel 2 [⟨"a/b", false, 0⟩] "a/b/" "a/b" =
        some (([] : FS), Except.error FsErr.errFileNotFound) := by rfl
    rw [h3] at h2
    injection h2 with h4
    rw [← h4]
    simp

theorem fsDeleteFile_protects_base_witness :
    (⟨"base", true, 0⟩ : FSEntry) ∈
      (fsDeleteFile [⟨"base", true, 0⟩, ⟨"base/x", false, 1⟩] "base" "base/x").1 :=
  fsDeleteFile_protects_base.2.1 [⟨"base", true, 0⟩, ⟨"base/x", false, 1⟩]
    "base" "base/x" ⟨"base", true, 0⟩ (by decide) (by decide)

/-- C10: the walk stops silently at a non-empty directory.  When the
delete path (distinct from the base path) exists as a non-empty
directory, `fsDeleteFile` returns nil without removing anything and
without recursing to the parent. -/
theorem fsDeleteFile_nonempty_dir (fs : FS) (b p : String) (st : FSEntry)
    (hne : b ≠ p) (hstat : statFS fs p = some st) (hdir : st.isDir = true)
    (hnem : isDirEmptyFS fs p = false) : fsDeleteFile fs b p = (fs, Except.ok ()) := by
  unfold fsDeleteFile
  simp only [checkPathLength]
  rw [if_neg hne]
  simp only [hstat]
  rw [if_pos (by rw [hdir, hnem]; rfl)]

theorem fsDeleteFile_nonempty_dir_witness :
    fsDeleteFile [⟨"d", true, 0⟩, ⟨"d/x", false, 0⟩] "base" "d" =
      ([⟨"d", true, 0⟩, ⟨"d/x", false, 0⟩], Except.ok ()) :=
  fsDeleteFile_nonempty_dir [⟨"d", true, 0⟩, ⟨"d/x", false, 0⟩] "base" "d"
    ⟨"d", true, 0⟩ (by decide) (by decide) (by decide) (by decide)

/-- C9: argument validation.  Each of the nine validating helpers rejects
an empty path (and `fsOpenFile` a negative offset, `fsCreateFile` a nil
reader or nil buffer) with `errInvalidArgument` before touching the
filesystem, leaving the state unchanged; `fsRenameFile` alone performs no
such validation and never returns `errInvalidArgument`. -/
theorem fs_helpers_arg_validation :
    (∀ fs : FS, fsRemoveFile fs "" = (fs, Except.error FsErr.errInvalidArgument)) ∧
    (∀ fs : FS, fsRemoveAll fs "" = (fs, Except.error FsErr.errInvalidArgument)) ∧
    (∀ fs : FS, fsRemoveDir fs "" = (fs, Except.error FsErr.errInvalidArgument)) ∧
    (∀ fs : FS, fsMkdir fs "" = (fs, Except.error FsErr.errInvalidArgument)) ∧
    (∀ fs : FS, fsStatDir fs "" = Except.error FsErr.errInvalidArgument) ∧
    (∀ fs : FS, fsStatFile fs "" = Except.error FsErr.errInvalidArgument) ∧
    (∀ (fs : FS) (p : String) (off : Int), p = "" ∨ off < 0 →
      fsOpenFile fs p off = Except.error FsErr.errInvalidArgument) ∧
    (∀ (fs : FS) (p : String) (reader buf : Option Nat) (fsz : Int),
      p = "" ∨ reader = none ∨ buf = none →
      fsCreateFile fs p reader buf fsz = (fs, Except.error FsErr.errInvalidArgument)) ∧
    (∀ (fs : FS) (b u : String), b = "" ∨ u = "" →
      fsRemoveUploadIDPath fs b u = (fs, Except.error FsErr.errInvalidArgument)) ∧
    (∀ (fs : FS) (s d : String),
      (fsRenameFile fs s d).2 ≠ Except.error FsErr.errInvalidArgument) := by
  refine ⟨?_, ?_, ?_, ?_, ?_, ?_, ?_, ?_, ?_, ?_⟩
  · intro fs
    unfold fsRemoveFile
    rw [if_pos rfl]
  · intro fs
    unfold fsRemoveAll
    rw [if_pos rfl]
  · intro fs
    unfold fsRemoveDir
    rw [if_pos rfl]
  · intro fs
    unfold fsMkdir
    rw [if_pos rfl]
  · intro fs
    unfold fsStatDir
    rw [if_pos rfl]
  · intro fs
    unfold fsStatFile
    rw [if_pos rfl]
  · intro fs p off h
    have hc : (decide (p = "") || decide (off < 0)) = true := by
      rcases h with h | h <;> simp [h]
    unfold fsOpenFile
    rw [if_pos hc]
  · intro fs p reader buf fsz h
    have hc : (decide (p = "") || decide (reader = none) || decide (buf = none)) = true := by
      rcases h with h | h | h <;> simp [h]
    unfold fsCreateFile
    rw [if_pos hc]
  · intro fs b u h
    have hc : (decide (b = "") || decide (u = "")) = true := by
      rcases h with h | h <;> simp [h]
    unfold fsRemoveUploadIDPath
    rw [if_pos hc]
  · intro fs s d
    unfold fsRenameFile
    cases hm : statFS (mkdirAll fs (goDir d)) s <;> simp [hm]

theorem fs_helpers_arg_validation_witness :
    fsOpenFile [] "" 0 = Except.error FsErr.errInvalidArgument ∧
    fsCreateFile [] "x" none (some 1) 0 = ([], Except.error FsErr.errInvalidArgument) ∧
    fsRemoveUploadIDPath [] "" "u" = ([], Except.error FsErr.errInvalidArgument) :=
  ⟨fs_helpers_arg_validation.2.2.2.2.2.2.1 [] "" 0 (Or.inl rfl),
   fs_helpers_arg_validation.2.2.2.2.2.2.2.1 [] "x" none (some 1) 0 (Or.inr (Or.inl rfl)),
   fs_helpers_arg_validation.2.2.2.2.2.2.2.2.1 [] "" "u" (Or.inl rfl)⟩

end MinioFS
